import Mathlib

/-!
Formal model of the multi-object tracker in `track.py` (segment-any-moving).

The Python code is embedded shallowly:
* `Detection` / `Track` mirror the classes in `track.py`.  External library
  results that the tracker consumes are represented by explicit data: the
  decoded binary segmentation mask (`cv2`/`pycocotools` decode it from RLE)
  is a finite set of on-pixels, so `compute_area` (the contour moment `m00`
  of a 0/1 mask) is the pixel count and `mask_iou` (`pycocotools.mask.iou`)
  is |A∩B|/|A∪B| (0 when both masks are empty, as in pycocotools).
* Python runtime failures (`TypeError`, `IndexError`, `AssertionError`,
  `AttributeError`) are modelled with `Except PyError`.
* `scipy.spatial.distance.cosine` and `utils.distance.chi_square_distance`
  are external collaborators whose numeric values the tracking logic only
  compares; they are abstracted as the function bundle `ExternalFns`.
* All real arithmetic of the source is exact rational arithmetic here; the
  only square roots in the source occur in `track_distance`, whose result is
  only ever compared with `spatial_dist_max`, so the comparison is embedded
  by comparing squares (see `too_far`).
-/

/-- Python runtime errors that the tracker code can raise. -/
inductive PyError
  | typeError
  | indexError
  | assertionError
  | attributeError
deriving DecidableEq, Repr

/-- One per-frame observation, mirroring `Detection.__init__` in `track.py`.
`box` is `(x1, y1, x2, y2)`, `mask` is the decoded binary segmentation mask
(set of on-pixels), `image` is an opaque handle to the frame's pixel array
and `imageShape` its `(shape[0], shape[1])`, `track` is the back-reference
`detection.track` (a track id; `none` before assignment). -/
structure Detection where
  box : ℚ × ℚ × ℚ × ℚ
  score : ℚ
  label : ℕ
  timestamp : ℕ
  image : ℕ
  imageShape : ℕ × ℕ
  mask : Finset (ℕ × ℕ)
  mask_feature : Option (List ℚ)
  track : Option ℕ
deriving DecidableEq

/-- `Detection.compute_area`: `cv2.moments(decoded_mask)['m00']` of a 0/1
mask is the number of on-pixels. -/
def Detection.compute_area (d : Detection) : ℚ := d.mask.card

/-- `Detection.compute_center_box`: `((x0 + x1) / 2, (y0 + y1) / 2)`. -/
def Detection.compute_center_box (d : Detection) : ℚ × ℚ :=
  ((d.box.1 + d.box.2.2.1) / 2, (d.box.2.1 + d.box.2.2.2) / 2)

/-- `Detection.mask_iou`: `pycocotools.mask.iou` on the two masks, i.e.
|A∩B|/|A∪B|; for two empty masks pycocotools returns 0, matching rational
division by zero. -/
def Detection.mask_iou (d e : Detection) : ℚ :=
  ((d.mask ∩ e.mask).card : ℚ) / ((d.mask ∪ e.mask).card : ℚ)

/-- The `Track` class: a persistent identity with its ordered detection
history.  (`velocity` is initialised to `None` and never assigned outside
commented-out code, so it is omitted.) -/
structure Track where
  id : ℕ
  detections : List Detection
deriving DecidableEq

/-- `Track.last_timestamp`: timestamp of the last detection, `None` when the
track is empty. -/
def Track.last_timestamp (t : Track) : Option ℕ :=
  t.detections.getLast?.map Detection.timestamp

/-- `Track.add_detection`: appends the detection and sets its back-reference
(`detection.track = self`, modelled by the track id).  The `timestamp`
parameter of the Python method is unused, as in the source. -/
def Track.add_detection (t : Track) (d : Detection) : Track :=
  { t with detections := t.detections ++ [{ d with track := some t.id }] }

/-- `--appearance-feature` choices of the argument parser. -/
inductive AppearanceFeature
  | mask
  | histogram
deriving DecidableEq

/-- The `tracking_params` dictionary (see `add_tracking_arguments`).
`frames_skip_max` is an `int` in the source, the rest are `float`s. -/
structure TrackingParams where
  score_init_min : ℚ
  score_continue_min : ℚ
  frames_skip_max : ℤ
  spatial_dist_max : ℚ
  area_ratio : ℚ
  iou_min : ℚ
  iou_gap_min : ℚ
  ignore_labels : Bool
  appearance_feature : AppearanceFeature
  appearance_gap : ℚ
deriving DecidableEq

/-- External appearance-distance collaborators:
`cosineDist` models `scipy.spatial.distance.cosine` applied to the two
detections' `mask_feature`s, `chiSquareDist` models
`utils.distance.chi_square_distance` applied to their color histograms.
The tracker only compares these values, so they are kept abstract. -/
structure ExternalFns where
  cosineDist : Detection → Detection → ℚ
  chiSquareDist : Detection → Detection → ℚ

/-- A value stored in the `candidates` dict of
`_match_detections_single_timestep`.  The source stores either a list of
detection indices or — in the zero-area branch — the Python int `0`. -/
inductive CandVal
  | pyInt (n : ℤ)
  | pyList (l : List ℕ)
deriving DecidableEq

/-- Python list indexing `l[i]` for a non-negative index. -/
def getAt (l : List α) (i : ℕ) : Except PyError α :=
  match l.get? i with
  | some x => .ok x
  | none => .error .indexError

/-- Python list assignment `l[i] = x` for a non-negative index. -/
def setAt (l : List α) (i : ℕ) (x : α) : Except PyError (List α) :=
  if i < l.length then .ok (l.set i x) else .error .indexError

/-- Python `track.detections[-1]` (raises `IndexError` on an empty list). -/
def lastDet (t : Track) : Except PyError Detection :=
  match t.detections.getLast? with
  | some d => .ok d
  | none => .error .indexError

/-- The stage-1 area gate of `_match_detections_single_timestep` (the branch
where `track_area != 0`): a candidate with detection area `area` survives iff
`area > 0 and (area / track_area) > area_ratio and (track_area / area) >
area_ratio`. -/
def area_gate (r track_area area : ℚ) : Bool :=
  decide (area > 0) && decide (area / track_area > r) && decide (track_area / area > r)

/-- The square of `track_distance(track, detection)`: squared Euclidean
distance between the last detection's box centroid and the candidate's box
centroid, divided by the squared image diagonal
(`image.shape[0]**2 + image.shape[1]**2`).  The source value is the square
root of this. -/
def track_distance_sq (track : Track) (detection : Detection) : ℚ :=
  match track.detections.getLast? with
  | none => 0
  | some td =>
    let p := td.compute_center_box
    let q := detection.compute_center_box
    ((p.1 - q.1) ^ 2 + (p.2 - q.2) ^ 2) /
      (((detection.imageShape.1 : ℚ)) ^ 2 + ((detection.imageShape.2 : ℚ)) ^ 2)

/-- `track_distance(track, detections[i]) > spatial_dist_max` of stage 2.
Since `track_distance` is a quotient of square roots of non-negative
rationals, the comparison with a threshold `s` is `True` whenever `s < 0`
and otherwise equivalent to comparing the squares; the `none` branch of
`track_distance_sq` is unreachable because every caller has already
evaluated `track.detections[-1]`. -/
def too_far (p : TrackingParams) (track : Track) (detection : Detection) : Bool :=
  decide (p.spatial_dist_max < 0) ||
    decide (track_distance_sq track detection > p.spatial_dist_max ^ 2)

@[simp] theorem exceptBindOk (a : α) (f : α → Except ε β) :
    (Except.ok a >>= f) = f a := rfl

@[simp] theorem exceptBindErr (e : ε) (f : α → Except ε β) :
    ((Except.error e : Except ε α) >>= f) = Except.error e := rfl

@[simp] theorem exceptPure (a : α) : (pure a : Except ε α) = Except.ok a := rfl

/-- `detections[index].score`, the sort key of `sorted_indices`; every index
handed to it is drawn from `range len(detections)`, so the out-of-range
default is never read. -/
def scoreAt (detections : List Detection) (i : ℕ) : ℚ :=
  ((detections.get? i).map Detection.score).getD 0

/-- One iteration of the stage-1 loop ("Keep candidates with similar areas
only") of `_match_detections_single_timestep`.  When the track's last mask
area is zero the source stores the Python int `0` in the dict; otherwise it
rebuilds the candidate list by appending every index that passes the area
gate. -/
def areaFilterLoop (p : TrackingParams) (detections : List Detection)
    (track_area : ℚ) (l : List ℕ) : Except PyError (List ℕ) :=
  l.foldlM (fun acc i => do
    let d ← getAt detections i
    pure (if area_gate p.area_ratio track_area d.compute_area
          then acc ++ [i] else acc)) ([] : List ℕ)

def stage1Track (p : TrackingParams) (detections : List Detection)
    (cands : ℕ → CandVal) (track : Track) : Except PyError (ℕ → CandVal) := do
  let td ← lastDet track
  let track_area := td.compute_area
  if track_area = 0 then
    pure (Function.update cands track.id (.pyInt 0))
  else
    match cands track.id with
    | .pyInt _ => throw .typeError
    | .pyList l => do
      let new_candidates ← areaFilterLoop p detections track_area l
      pure (Function.update cands track.id (.pyList new_candidates))

/-- One iteration of the stage-2 loop ("Match tracks to detections with good
mask IOU").  Iterating over the dict value raises `TypeError` when it is the
int `0` stored by stage 1; `sorted_ious[0]` on an empty list would raise
`IndexError` (unreachable here because of the `if not track_ious` guard,
kept for fidelity). -/
def iouLoop (p : TrackingParams) (detections : List Detection)
    (matched_tracks : List (Option Track)) (track : Track) (track_detection : Detection)
    (is : List ℕ) : Except PyError (List (ℕ × ℚ)) :=
  is.foldlM (fun acc i => do
      let d ← getAt detections i
      let m ← getAt matched_tracks i
      let already_matched := m.isSome
      let different_label := if p.ignore_labels then false
                             else decide (track_detection.label ≠ d.label)
      if already_matched || different_label || too_far p track d then pure acc
      else pure (acc ++ [(i, track_detection.mask_iou d)])) ([] : List (ℕ × ℚ))

def stage2Track (p : TrackingParams) (detections : List Detection)
    (st : List (Option Track) × (ℕ → CandVal)) (track : Track) :
    Except PyError (List (Option Track) × (ℕ → CandVal)) := do
  let (matched_tracks, cands) := st
  let track_detection ← lastDet track
  let is ← (match cands track.id with
            | .pyInt _ => throw PyError.typeError
            | .pyList l => pure l)
  let track_ious ← iouLoop p detections matched_tracks track track_detection is
  if track_ious = [] then pure (matched_tracks, cands)
  else
    let sorted_ious := List.insertionSort (fun a b : ℕ × ℚ => b.2 ≤ a.2) track_ious
    match sorted_ious with
    | [] => throw .indexError
    | (best_index, best_iou) :: rest =>
      let second_best_iou : ℚ := match rest with | [] => 0 | x :: _ => x.2
      if best_iou - second_best_iou > p.iou_gap_min then do
        let matched2 ← setAt matched_tracks best_index (some track)
        pure (matched2, Function.update cands track.id (.pyList []))
      else
        pure (matched_tracks, Function.update cands track.id
          (.pyList (sorted_ious.filterMap
            (fun di => if di.2 ≥ p.iou_min then some di.1 else none))))

def unmatchedLoop (matched_tracks : List (Option Track)) (is : List ℕ) :
    Except PyError (List ℕ) :=
  is.foldlM (fun acc i => do
      let m ← getAt matched_tracks i
      pure (if m.isSome then acc else acc ++ [i])) ([] : List ℕ)

def appearanceLoop (ext : ExternalFns) (p : TrackingParams) (detections : List Detection)
    (track_detection : Detection) (filtered : List ℕ) : Except PyError (List (ℕ × ℚ)) :=
  filtered.foldlM (fun acc i => do
      let d ← getAt detections i
      match p.appearance_feature with
      | .mask => pure (acc ++ [(i, ext.cosineDist track_detection d)])
      | .histogram => pure (acc ++ [(i, ext.chiSquareDist track_detection d)]))
    ([] : List (ℕ × ℚ))

/-- One iteration of the stage-3 loop ("Match tracks to detections with good
appearance threshold").  The second-best distance is `np.float('inf')` when
only one candidate remains, in which case the commit test
`second_best - best > appearance_gap` always succeeds against the finite
`appearance_gap`. -/
def stage3Track (ext : ExternalFns) (p : TrackingParams) (detections : List Detection)
    (st : List (Option Track) × (ℕ → CandVal)) (track : Track) :
    Except PyError (List (Option Track) × (ℕ → CandVal)) := do
  let (matched_tracks, cands) := st
  let is ← (match cands track.id with
            | .pyInt _ => throw PyError.typeError
            | .pyList l => pure l)
  let filtered ← unmatchedLoop matched_tracks is
  let cands := Function.update cands track.id (.pyList filtered)
  if filtered = [] then pure (matched_tracks, cands)
  else do
    let track_detection ← lastDet track
    let appearance_distances ←
      appearanceLoop ext p detections track_detection filtered
    let sorted_distances := List.insertionSort (fun a b : ℕ × ℚ => a.2 ≤ b.2)
      appearance_distances
    match sorted_distances with
    | [] => throw .indexError
    | (best_match, best_distance) :: rest =>
      let commit : Bool := match rest with
        | [] => true
        | x :: _ => decide (x.2 - best_distance > p.appearance_gap)
      if commit then do
        let matched2 ← setAt matched_tracks best_match (some track)
        pure (matched2, Function.update cands track.id (.pyList []))
      else pure (matched_tracks, cands)

/-- `_match_detections_single_timestep(tracks, detections, tracking_params)`.
The `candidates` dict keyed by track id is modelled as a total function;
every access in the source uses a key written by the initial comprehension,
so the base value is never read. -/
def _match_detections_single_timestep (ext : ExternalFns) (p : TrackingParams)
    (tracks : List Track) (detections : List Detection) :
    Except PyError (List (Option Track)) := do
  let matched_tracks : List (Option Track) := detections.map (fun _ => none)
  let sorted_indices := List.insertionSort
    (fun i j => scoreAt detections j ≤ scoreAt detections i)
    (List.range detections.length)
  let candidates : ℕ → CandVal := tracks.foldl
    (fun c track => Function.update c track.id (.pyList sorted_indices))
    (fun _ => .pyList [])
  let candidates ← tracks.foldlM (stage1Track p detections) candidates
  let (matched_tracks, candidates) ←
    tracks.foldlM (stage2Track p detections) (matched_tracks, candidates)
  let (matched_tracks, _) ←
    tracks.foldlM (stage3Track ext p detections) (matched_tracks, candidates)
  pure matched_tracks

/-- `dict.setdefault`-style insertion used to model
`collections.defaultdict(list)`: append `x` to the bucket of key `k`,
creating the bucket at the end on first use (Python dicts preserve
insertion order). -/
def addToGroups [DecidableEq κ] (k : κ) (x : α) :
    List (κ × List α) → List (κ × List α)
  | [] => [(k, [x])]
  | (k2, g) :: rest =>
    if k2 = k then (k2, g ++ [x]) :: rest else (k2, g) :: addToGroups k x rest

/-- Group a list by a key, preserving both the first-use order of keys and
the order of elements within each bucket, exactly as iterating a
`collections.defaultdict(list)` built by a left-to-right loop. -/
def groupByKey [DecidableEq κ] (key : α → κ) (l : List α) : List (κ × List α) :=
  l.foldl (fun gs x => addToGroups (key x) x gs) []

/-- Descending order on the keys of `tracks_by_timestamp` used by
`sorted(tracks_by_timestamp.keys(), reverse=True)`.  All keys are `some`
whenever every track is non-empty; mixed `None`/int keys raise `TypeError`
before this order is ever consulted (see `match_detections`). -/
def tsDesc (a b : Option ℕ) : Prop := b.getD 0 ≤ a.getD 0

instance : DecidableRel tsDesc := fun a b => inferInstanceAs (Decidable (b.getD 0 ≤ a.getD 0))

instance : IsTotal (Option ℕ) tsDesc := ⟨fun a b => le_total (b.getD 0) (a.getD 0)⟩

instance : IsTrans (Option ℕ) tsDesc := ⟨fun _ _ _ h1 h2 => le_trans h2 h1⟩

/-- The body of `for i, track in enumerate(single_timestamp_matched_tracks)`
in `match_detections`: walk the per-group result together with the list of
yet-unmatched detection indices, committing matches into the global
assignment.  `unmatched_detection_indices[i]` raises `IndexError` when the
group result is longer; the `assert matched_tracks[detection_index] is None`
is an `AssertionError`. -/
def applyMatches (matched_tracks : List (Option Track)) (new_unmatched : List ℕ) :
    List (Option Track) → List ℕ → Except PyError (List (Option Track) × List ℕ)
  | [], _ => pure (matched_tracks, new_unmatched)
  | _ :: _, [] => throw .indexError
  | otrack :: single, di :: unmatched =>
    match otrack with
    | some tr => do
      let cur ← getAt matched_tracks di
      if cur.isSome then throw .assertionError
      else do
        let m ← setAt matched_tracks di (some tr)
        applyMatches m new_unmatched single unmatched
    | none => applyMatches matched_tracks (new_unmatched ++ [di]) single unmatched

/-- `tracks_by_timestamp[timestamp]`: the bucket of the given key; every
key looked up comes from the dict's own key list, so the default is never
read. -/
def lookupGroup (groups : List (Option ℕ × List Track)) (ts : Option ℕ) : List Track :=
  ((groups.find? (fun g => g.1 = ts)).map Prod.snd).getD []

/-- The body of `for timestamp in timestamps` in `match_detections`: run one
single-timestep matching pass on the still-unmatched detections and fold its
results into the global state. -/
def match_step (ext : ExternalFns) (p : TrackingParams) (detections : List Detection)
    (groups : List (Option ℕ × List Track))
    (st : List (Option Track) × List ℕ) (timestamp : Option ℕ) :
    Except PyError (List (Option Track) × List ℕ) := do
  let (matched_tracks, unmatched_detection_indices) := st
  let subdets ← unmatched_detection_indices.mapM (getAt detections)
  let single ← _match_detections_single_timestep ext p (lookupGroup groups timestamp) subdets
  applyMatches matched_tracks [] single unmatched_detection_indices

/-- `match_detections(tracks, detections, tracking_params)`.  Tracks are
grouped by `last_timestamp()`; `sorted(keys, reverse=True)` raises
`TypeError` when a `None` key must be compared with an int key, i.e. when
`None` is present among at least two keys. -/
def match_detections (ext : ExternalFns) (p : TrackingParams)
    (tracks : List Track) (detections : List Detection) :
    Except PyError (List (Option Track)) := do
  let groups := groupByKey Track.last_timestamp tracks
  let keys := groups.map Prod.fst
  if none ∈ keys ∧ 2 ≤ keys.length then throw .typeError
  else do
    let timestamps := List.insertionSort tsDesc keys
    let init : List (Option Track) × List ℕ :=
      (detections.map (fun _ => none), List.range detections.length)
    let (matched_tracks, _) ← timestamps.foldlM (match_step ext p detections groups) init
    pure matched_tracks

/-- One raw detection record of a frame, after
`vis.convert_from_cls_format` has split the detector output into parallel
lists: `box` is `box[:4]`, `score` is `box[4]`, plus the mask, label and
optional appearance feature at the same position. -/
structure RawDetection where
  box : ℚ × ℚ × ℚ × ℚ
  score : ℚ
  label : ℕ
  mask : Finset (ℕ × ℕ)
  feature : Option (List ℚ)
deriving DecidableEq

/-- Per-frame input consumed by `track`: the converted detector records
(`boxes, masks, _, labels` plus optional `features`), and the decoded image
(an opaque handle together with its shape).  A frame with no predictions is
the empty record list, matching the `boxes is None` fallback. -/
structure FrameInput where
  rawDets : List RawDetection
  hasFeatures : Bool
  image : ℕ
  imageShape : ℕ × ℕ
deriving DecidableEq

/-- Build one `Detection` of the per-frame list comprehension in `track`. -/
def mkDetection (p : TrackingParams) (timestamp : ℕ) (frame : FrameInput)
    (r : RawDetection) : Detection :=
  { box := r.box
    score := r.score
    label := r.label
    timestamp := timestamp
    image := frame.image
    imageShape := frame.imageShape
    mask := r.mask
    mask_feature :=
      match p.appearance_feature, frame.hasFeatures with
      | .mask, true => r.feature
      | _, _ => none
    track := none }

/-- The per-frame list comprehension of `track`: keep a record iff
`box[4] > score_continue_min and (filter_label is None or label ==
filter_label)`. -/
def buildDetections (p : TrackingParams) (filter_label : Option ℕ)
    (timestamp : ℕ) (frame : FrameInput) : List Detection :=
  (frame.rawDets.filter (fun r =>
      decide (r.score > p.score_continue_min) &&
        (match filter_label with
         | none => true
         | some fl => decide (r.label = fl)))).map (mkDetection p timestamp frame)

/-- The mutable state of `track`'s frame loop.  Python mutates `Track`
objects in place and `all_tracks` / `current_tracks` alias them, so the
model keeps a single store `all_tracks` (in creation order) and refers to
the current set by track id. -/
structure TrackerState where
  all_tracks : List Track
  current_ids : List ℕ
  track_id : ℕ
deriving DecidableEq

/-- In-place mutation `track.add_detection(detection, timestamp)` applied to
the one store entry with the given id. -/
def appendDetection (store : List Track) (i : ℕ) (d : Detection) : List Track :=
  store.map (fun t => if t.id = i then t.add_detection d else t)

/-- `current_tracks` as a list of live `Track` values: every current id has
exactly one store entry (ids are unique and never dropped), so the
`filterMap` drops nothing. -/
def currentTracks (store : List Track) (ids : List ℕ) : List Track :=
  ids.filterMap (fun i => store.find? (fun t => t.id = i))

/-- The body of `for detection, track in zip(detections, matched_tracks)` in
`track`: birth of a new track when unmatched with
`score > score_init_min`, silent drop when unmatched below that, in-place
append when matched.  State is `(all_tracks, continued ids, next track_id)`. -/
def continueStep (p : TrackingParams) (acc : List Track × List ℕ × ℕ)
    (dm : Detection × Option Track) : List Track × List ℕ × ℕ :=
  let (store, continued, next_id) := acc
  let (detection, otrack) := dm
  match otrack with
  | none =>
    if detection.score > p.score_init_min then
      let store := store ++ [{ id := next_id, detections := [] }]
      let store := appendDetection store next_id detection
      (store, continued ++ [next_id], next_id + 1)
    else acc
  | some tr => (appendDetection store tr.id detection, continued ++ [tr.id], next_id)

/-- The skipped-track filter at the end of `track`'s frame loop: a current
track not continued this frame stays in the active set iff
`track.last_timestamp() - timestamp < frames_skip_max` (the source's
operand order).  `None - int` raises `TypeError` (unreachable for tracks
that ever received a detection). -/
def skipCheck (p : TrackingParams) (timestamp : ℕ) (continued_ids : List ℕ)
    (acc : List ℕ) (track : Track) : Except PyError (List ℕ) :=
  if track.id ∈ continued_ids then pure acc
  else
    match track.last_timestamp with
    | none => throw .typeError
    | some lt =>
      pure (if (lt : ℤ) - (timestamp : ℤ) < p.frames_skip_max then acc ++ [track.id] else acc)

/-- One iteration of `track`'s frame loop (`for timestamp, (image_path,
image_results) in enumerate(...)`). -/
def trackStep (ext : ExternalFns) (p : TrackingParams) (filter_label : Option ℕ)
    (st : TrackerState) (tf : ℕ × FrameInput) : Except PyError TrackerState := do
  let (timestamp, frame) := tf
  let current_tracks := currentTracks st.all_tracks st.current_ids
  let detections := buildDetections p filter_label timestamp frame
  let matched_tracks ← match_detections ext p current_tracks detections
  let (all_tracks, continued_ids, track_id) :=
    (detections.zip matched_tracks).foldl (continueStep p) (st.all_tracks, [], st.track_id)
  let skipped ← (currentTracks all_tracks st.current_ids).foldlM
    (skipCheck p timestamp continued_ids) ([] : List ℕ)
  pure { all_tracks := all_tracks, current_ids := continued_ids ++ skipped,
         track_id := track_id }

/-- `track(frame_paths, frame_detections, tracking_params, ...)`: the whole
sequence controller, returning `all_tracks`. -/
def track (ext : ExternalFns) (p : TrackingParams) (filter_label : Option ℕ)
    (frames : List FrameInput) : Except PyError (List Track) := do
  let final ← frames.enum.foldlM (trackStep ext p filter_label)
    { all_tracks := [], current_ids := [], track_id := 0 }
  pure final.all_tracks

/-- One output line of `output_mot_tracks`:
`'{frame},{track_id},{left},{top},{width},{height},{conf},-1,-1,-1'`.
The final three fields are the literal `-1,-1,-1` of the format string
(the `x`, `y`, `z` keyword arguments are passed but never referenced). -/
structure MotLine where
  frame : ℤ
  track_id : ℕ
  left : ℚ
  top : ℚ
  width : ℚ
  height : ℚ
  conf : ℚ
  x3d : ℤ
  y3d : ℤ
  z3d : ℤ
deriving DecidableEq

/-- The per-track filter of `output_mot_tracks`:
`label_list[track.detections[-1].label] == 'person'`,
`len(track.detections) > 4`, `any(x.score >= 0.5 for x in
track.detections)`. -/
def motFilterStep (label_list : List String) (acc : List Track) (track : Track) :
    Except PyError (List Track) := do
  let last ← lastDet track
  let lbl ← getAt label_list last.label
  let is_person := lbl = "person"
  let is_long_enough := 4 < track.detections.length
  let has_high_score := ∃ x ∈ track.detections, x.score ≥ (0.5 : ℚ)
  pure (if is_person ∧ is_long_enough ∧ has_high_score then acc ++ [track] else acc)

/-- Emit the line of one detection: `frame_numbers[timestamp]` and
`detection.track.id` are looked up first (`detection.track` is `None` only
for a detection never added to a track, in which case `.id` raises
`AttributeError`). -/
def motLineStep (frame_numbers : List ℤ) (timestamp : ℕ)
    (lines : List MotLine) (detection : Detection) : Except PyError (List MotLine) := do
  let frame ← getAt frame_numbers timestamp
  let tid ← (match detection.track with
             | some i => pure i
             | none => throw PyError.attributeError)
  let (x0, y0, x1, y1) := detection.box
  pure (lines ++ [{ frame := frame, track_id := tid, left := x0, top := y0,
                    width := x1 - x0, height := y1 - y0, conf := detection.score,
                    x3d := -1, y3d := -1, z3d := -1 }])

/-- `output_mot_tracks(tracks, label_list, frame_numbers, ...)` up to the
final file write: the sequence of formatted lines.  `assert
len(detections_by_frame) > 0` raises `AssertionError` when no track passes
the filter. -/
def output_mot_tracks (label_list : List String) (frame_numbers : List ℤ)
    (tracks : List Track) : Except PyError (List MotLine) := do
  let filtered_tracks ← tracks.foldlM (motFilterStep label_list) ([] : List Track)
  let detections_by_frame :=
    groupByKey Detection.timestamp (filtered_tracks.flatMap Track.detections)
  if detections_by_frame.length = 0 then throw .assertionError
  else do
    let sorted_frames := List.insertionSort
      (fun a b : ℕ × List Detection => a.1 ≤ b.1) detections_by_frame
    sorted_frames.foldlM (fun lines pair =>
      pair.2.foldlM (motLineStep frame_numbers pair.1) lines) ([] : List MotLine)

@[simp] theorem exceptThrow (e : ε) : (throw e : Except ε α) = Except.error e := rfl

theorem getAt_eq_ok {l : List α} {i : ℕ} {x : α} :
    getAt l i = .ok x ↔ l.get? i = some x := by
  unfold getAt
  cases h : l.get? i <;> simp

theorem setAt_eq_ok {l : List α} {i : ℕ} {x : α} {r : List α} :
    setAt l i x = .ok r ↔ i < l.length ∧ r = l.set i x := by
  unfold setAt
  split <;> simp_all [eq_comm]

/-- Induction principle for a successful `foldlM` over `Except`:
an invariant `P` together with a reflexive-transitive relation `R`
established by every successful step carries over to the result. -/
theorem foldlM_except_induction {α β : Type*} {P : β → Prop} {R : β → β → Prop}
    {f : β → α → Except ε β}
    (htrans : ∀ a b c, R a b → R b c → R a c) (hrefl : ∀ a, R a a)
    {l : List α} {b r : β}
    (hstep : ∀ st x st2, x ∈ l → P st → f st x = .ok st2 → P st2 ∧ R st st2)
    (hb : P b) (h : l.foldlM f b = .ok r) : P r ∧ R b r := by
  induction l generalizing b with
  | nil =>
    simp only [List.foldlM_nil, exceptPure, Except.ok.injEq] at h
    subst h
    exact ⟨hb, hrefl b⟩
  | cons x xs ih =>
    rw [List.foldlM_cons] at h
    cases hf : f b x with
    | error e => rw [hf] at h; simp at h
    | ok b2 =>
      rw [hf] at h
      simp only [exceptBindOk] at h
      obtain ⟨hP, hR⟩ := hstep b x b2 (by simp) hb hf
      obtain ⟨hPr, hRr⟩ := ih (fun st y st2 hy => hstep st y st2 (by simp [hy]) ) hP h
      exact ⟨hPr, htrans _ _ _ hR hRr⟩

/-- Plain invariant version of `foldlM_except_induction`. -/
theorem foldlM_except_inv {α β : Type*} {P : β → Prop} {f : β → α → Except ε β}
    {l : List α} {b r : β}
    (hstep : ∀ st x st2, x ∈ l → P st → f st x = .ok st2 → P st2)
    (hb : P b) (h : l.foldlM f b = .ok r) : P r :=
  (foldlM_except_induction (R := fun _ _ => True) (fun _ _ _ _ _ => trivial)
    (fun _ => trivial) (fun st x st2 hx hP hf => ⟨hstep st x st2 hx hP hf, trivial⟩)
    hb h).1

theorem mapM_except_ok_length {f : α → Except ε β} :
    ∀ {l : List α} {r : List β}, l.mapM f = .ok r → r.length = l.length := by
  intro l
  induction l with
  | nil => intro r h; simp only [List.mapM_nil, exceptPure, Except.ok.injEq] at h; simp [← h]
  | cons x xs ih =>
    intro r h
    rw [List.mapM_cons] at h
    cases hf : f x with
    | error e => rw [hf] at h; simp at h
    | ok b =>
      rw [hf] at h
      simp only [exceptBindOk] at h
      cases hrest : xs.mapM f with
      | error e => rw [hrest] at h; simp at h
      | ok bs =>
        rw [hrest] at h
        simp only [exceptBindOk, exceptPure, Except.ok.injEq] at h
        subst h
        simp [ih hrest]

theorem mapM_except_ok_get {f : α → Except ε β} :
    ∀ {l : List α} {r : List β}, l.mapM f = .ok r →
      ∀ i b, r.get? i = some b → ∃ a, l.get? i = some a ∧ f a = .ok b := by
  intro l
  induction l with
  | nil =>
    intro r h i b hb
    simp only [List.mapM_nil, exceptPure, Except.ok.injEq] at h
    subst h; simp at hb
  | cons x xs ih =>
    intro r h i b hb
    rw [List.mapM_cons] at h
    cases hf : f x with
    | error e => rw [hf] at h; simp at h
    | ok c =>
      rw [hf] at h
      simp only [exceptBindOk] at h
      cases hrest : xs.mapM f with
      | error e => rw [hrest] at h; simp at h
      | ok bs =>
        rw [hrest] at h
        simp only [exceptBindOk, exceptPure, Except.ok.injEq] at h
        subst h
        cases i with
        | zero =>
          simp only [List.get?] at hb
          exact ⟨x, rfl, by simp [hf, ← Option.some_inj.mp hb]⟩
        | succ n =>
          simp only [List.get?] at hb
          obtain ⟨a, ha1, ha2⟩ := ih hrest n b hb
          exact ⟨a, ha1, ha2⟩

theorem get?_set_self {l : List α} {i : ℕ} (h : i < l.length) (a : α) :
    (l.set i a).get? i = some a := by
  simp [List.get?_eq_getElem?, List.getElem?_set_self, h]

theorem get?_set_of_ne {l : List α} {i j : ℕ} (h : i ≠ j) (a : α) :
    (l.set i a).get? j = l.get? j := by
  simp [List.get?_eq_getElem?, List.getElem?_set_ne h]

/-- Two members of a list with `Nodup` image under `f` and equal `f`-values
are equal. -/
theorem eq_of_mem_of_nodup_map {f : α → β} :
    ∀ {l : List α}, (l.map f).Nodup → ∀ {a b : α}, a ∈ l → b ∈ l → f a = f b → a = b := by
  intro l
  induction l with
  | nil => intro _ a b ha; simp at ha
  | cons x xs ih =>
    intro hnd a b ha hb hf
    simp only [List.map_cons, List.nodup_cons] at hnd
    rcases List.mem_cons.mp ha with rfl | ha2 <;>
      rcases List.mem_cons.mp hb with rfl | hb2
    · rfl
    · exact absurd (hf ▸ List.mem_map_of_mem f hb2) hnd.1
    · exact absurd (hf ▸ List.mem_map_of_mem f ha2) hnd.1
    · exact ih hnd.2 ha2 hb2 hf

theorem addToGroups_forall [DecidableEq κ] {Q : κ × List α → Prop} {k : κ} {x : α} :
    ∀ {gs : List (κ × List α)}, (∀ pr ∈ gs, Q pr) → Q (k, [x]) →
      (∀ k2 g, (k2, g) ∈ gs → k2 = k → Q (k2, g ++ [x])) →
      ∀ pr ∈ addToGroups k x gs, Q pr := by
  intro gs
  induction gs with
  | nil => intro _ hnew _ pr hpr; simp only [addToGroups, List.mem_singleton] at hpr; simp [hpr, hnew]
  | cons hd tl ih =>
    intro hgs hnew hupd pr hpr
    obtain ⟨k2, g⟩ := hd
    simp only [addToGroups] at hpr
    by_cases hk : k2 = k
    · rw [if_pos hk] at hpr
      rcases List.mem_cons.mp hpr with h1 | h2
      · subst h1; exact hupd k2 g (by simp) hk
      · exact hgs pr (List.mem_cons_of_mem _ h2)
    · rw [if_neg hk] at hpr
      rcases List.mem_cons.mp hpr with h1 | h2
      · subst h1; exact hgs _ (by simp)
      · exact ih (fun q hq => hgs q (List.mem_cons_of_mem _ hq)) hnew
          (fun k3 g3 hm he => hupd k3 g3 (List.mem_cons_of_mem _ hm) he) pr h2

theorem addToGroups_fst [DecidableEq κ] {k : κ} {x : α} :
    ∀ {gs : List (κ × List α)},
      (addToGroups k x gs).map Prod.fst =
        if k ∈ gs.map Prod.fst then gs.map Prod.fst else gs.map Prod.fst ++ [k] := by
  intro gs
  induction gs with
  | nil => simp [addToGroups]
  | cons hd tl ih =>
    obtain ⟨k2, g⟩ := hd
    simp only [addToGroups]
    by_cases hk : k2 = k
    · subst hk
      simp
    · rw [if_neg hk]
      simp only [List.map_cons, ih]
      by_cases hmem : k ∈ tl.map Prod.fst
      · simp [hmem, Ne.symm hk]
      · simp [hmem, Ne.symm hk]

theorem addToGroups_flatten_perm [DecidableEq κ] {k : κ} {x : α} :
    ∀ {gs : List (κ × List α)},
      ((addToGroups k x gs).map Prod.snd).flatten.Perm
        ((gs.map Prod.snd).flatten ++ [x]) := by
  intro gs
  induction gs with
  | nil => simp [addToGroups]
  | cons hd tl ih =>
    obtain ⟨k2, g⟩ := hd
    simp only [addToGroups]
    by_cases hk : k2 = k
    · rw [if_pos hk]
      simp only [List.map_cons, List.flatten_cons, List.append_assoc]
      exact List.Perm.append_left g List.perm_append_comm
    · rw [if_neg hk]
      simp only [List.map_cons, List.flatten_cons, List.append_assoc]
      exact List.Perm.append_left g ih

theorem groupByKey_forall [DecidableEq κ] {key : α → κ} {Q : κ × List α → Prop}
    (hQnew : ∀ y, Q (key y, [y]))
    (hQupd : ∀ k g y, Q (k, g) → k = key y → Q (k, g ++ [y])) :
    ∀ (l : List α) (gs : List (κ × List α)), (∀ pr ∈ gs, Q pr) →
      ∀ pr ∈ l.foldl (fun acc y => addToGroups (key y) y acc) gs, Q pr := by
  intro l
  induction l with
  | nil => intro gs hgs pr hpr; exact hgs pr hpr
  | cons y ys ih =>
    intro gs hgs pr hpr
    simp only [List.foldl_cons] at hpr
    refine ih _ ?_ pr hpr
    exact addToGroups_forall hgs (hQnew y)
      (fun k2 g hm he => he ▸ hQupd _ _ y (he ▸ hgs (k2, g) hm) (he ▸ rfl))

/-- Every element of a bucket of `groupByKey` has that bucket's key. -/
theorem groupByKey_key_eq [DecidableEq κ] {key : α → κ} {l : List α} :
    ∀ pr ∈ groupByKey key l, ∀ y ∈ pr.2, key y = pr.1 := by
  refine groupByKey_forall (Q := fun pr => ∀ y ∈ pr.2, key y = pr.1) ?_ ?_ l [] (by simp)
  · intro y z hz; simp only [List.mem_singleton] at hz; simp [hz]
  · intro k g y hQ he z hz
    rcases List.mem_append.mp hz with h2 | h2
    · exact hQ z h2
    · simp only [List.mem_singleton] at h2; simp [h2, ← he]

/-- Buckets of `groupByKey` are non-empty. -/
theorem groupByKey_nonempty [DecidableEq κ] {key : α → κ} {l : List α} :
    ∀ pr ∈ groupByKey key l, pr.2 ≠ [] := by
  refine groupByKey_forall (Q := fun pr => pr.2 ≠ []) ?_ ?_ l [] (by simp)
  · intro y; simp
  · intro k g y _ _; simp

theorem groupByKey_keys_nodup_aux [DecidableEq κ] {key : α → κ} :
    ∀ (l : List α) (gs : List (κ × List α)), (gs.map Prod.fst).Nodup →
      ((l.foldl (fun acc y => addToGroups (key y) y acc) gs).map Prod.fst).Nodup := by
  intro l
  induction l with
  | nil => intro gs h; exact h
  | cons y ys ih =>
    intro gs h
    simp only [List.foldl_cons]
    refine ih _ ?_
    rw [addToGroups_fst]
    by_cases hmem : key y ∈ gs.map Prod.fst
    · simpa [hmem] using h
    · simp only [hmem, if_false]
      exact List.Nodup.append h (List.nodup_singleton _) (by simpa using hmem)

/-- The keys of `groupByKey` are pairwise distinct. -/
theorem groupByKey_keys_nodup [DecidableEq κ] {key : α → κ} {l : List α} :
    ((groupByKey key l).map Prod.fst).Nodup :=
  groupByKey_keys_nodup_aux l [] (by simp)

theorem groupByKey_flatten_perm_aux [DecidableEq κ] {key : α → κ} :
    ∀ (l : List α) (gs : List (κ × List α)),
      ((l.foldl (fun acc y => addToGroups (key y) y acc) gs).map Prod.snd).flatten.Perm
        ((gs.map Prod.snd).flatten ++ l) := by
  intro l
  induction l with
  | nil => intro gs; simp
  | cons y ys ih =>
    intro gs
    simp only [List.foldl_cons]
    refine (ih _).trans ?_
    have h1 := List.Perm.append_right ys
      (@addToGroups_flatten_perm _ _ _ (key y) y gs)
    refine h1.trans ?_
    simp [List.append_assoc]

/-- `groupByKey` is a partition: the concatenation of all buckets is a
permutation of the input. -/
theorem groupByKey_flatten_perm [DecidableEq κ] {key : α → κ} {l : List α} :
    ((groupByKey key l).map Prod.snd).flatten.Perm l := by
  simpa using @groupByKey_flatten_perm_aux _ _ _ key l []

theorem mem_of_mem_groupByKey [DecidableEq κ] {key : α → κ} {l : List α}
    {pr : κ × List α} (hpr : pr ∈ groupByKey key l) {y : α} (hy : y ∈ pr.2) : y ∈ l := by
  refine (@groupByKey_flatten_perm _ _ _ key l).mem_iff.mp ?_
  exact List.mem_flatten.mpr ⟨pr.2, List.mem_map_of_mem Prod.snd hpr, hy⟩

theorem exists_group_of_mem [DecidableEq κ] {key : α → κ} {l : List α} {y : α}
    (hy : y ∈ l) : ∃ pr ∈ groupByKey key l, y ∈ pr.2 := by
  have := (@groupByKey_flatten_perm _ _ _ key l).mem_iff.mpr hy
  obtain ⟨g, hg, hyg⟩ := List.mem_flatten.mp this
  obtain ⟨pr, hpr, rfl⟩ := List.mem_map.mp hg
  exact ⟨pr, hpr, hyg⟩

/-- C7 (counterexample): at the documented "disable" threshold
`area_ratio = 0` (and unit areas `a = b = 1`) the pair passes the stage-1
gate, yet the ratio `a / b = 1` does not lie in the claimed open interval
`(area_ratio, 1 / area_ratio)`, so "passing is equivalent to the ratio lying
strictly inside `(area_ratio, 1/area_ratio)`" fails for this threshold. -/
theorem area_gate_interval_fails_at_zero_ratio :
    area_gate 0 1 1 = true ∧ ¬ ((0 : ℚ) < 1 / 1 ∧ (1 : ℚ) / 1 < 1 / 0) := by
  refine ⟨?_, ?_⟩
  · norm_num [area_gate]
  · norm_num

/-- C7 (amended): for strictly positive areas `a` (detection) and `b`
(track) the stage-1 gate is symmetric under any ratio threshold, and for a
strictly positive threshold passing the gate is equivalent to the ratio
`a / b` lying strictly inside `(area_ratio, 1 / area_ratio)`. -/
theorem area_gate_symm_and_interval (r a b : ℚ) (ha : 0 < a) (hb : 0 < b) :
    area_gate r b a = area_gate r a b ∧
      (0 < r → (area_gate r b a = true ↔ r < a / b ∧ a / b < 1 / r)) := by
  constructor
  · refine Bool.eq_iff_iff.mpr ?_
    simp only [area_gate, Bool.and_eq_true, decide_eq_true_eq]
    constructor
    · rintro ⟨⟨h1, h2⟩, h3⟩
      exact ⟨⟨hb, h3⟩, h2⟩
    · rintro ⟨⟨h1, h2⟩, h3⟩
      exact ⟨⟨ha, h3⟩, h2⟩
  · intro hr
    simp only [area_gate, Bool.and_eq_true, decide_eq_true_eq]
    constructor
    · rintro ⟨⟨h1, h2⟩, h3⟩
      refine ⟨h2, ?_⟩
      rw [div_lt_div_iff₀ hb hr]
      rw [gt_iff_lt, lt_div_iff₀ ha] at h3
      linarith [h3]
    · rintro ⟨h1, h2⟩
      rw [div_lt_div_iff₀ hb hr] at h2
      refine ⟨⟨ha, h1⟩, ?_⟩
      rw [gt_iff_lt, lt_div_iff₀ ha]
      linarith [h2]

/-- Witness for `area_gate_symm_and_interval` at `r = 1/2`, `a = 1`,
`b = 2`. -/
theorem area_gate_symm_and_interval_witness :
    ((0 : ℚ) < 1 ∧ (0 : ℚ) < 2) ∧
      (area_gate (1/2) 2 1 = area_gate (1/2) 1 2 ∧
        (0 < (1/2 : ℚ) →
          (area_gate (1/2) 2 1 = true ↔ (1/2 : ℚ) < 1 / 2 ∧ (1 : ℚ) / 2 < 1 / (1/2)))) :=
  ⟨⟨by norm_num, by norm_num⟩,
    area_gate_symm_and_interval (1/2) 1 2 (by norm_num) (by norm_num)⟩

/-- Invariant of the per-group matching state `(matched_tracks, candidates)`
inside `_match_detections_single_timestep`: the assignment has the right
length, every assigned track belongs to the group and has an exhausted
candidate list, and assigned tracks at distinct indices have distinct
identities. -/
def SingleInv (g : List Track) (n : ℕ)
    (st : List (Option Track) × (ℕ → CandVal)) : Prop :=
  st.1.length = n ∧
  (∀ i t, st.1.get? i = some (some t) → t ∈ g ∧ st.2 t.id = .pyList []) ∧
  (∀ i j ti tj, i ≠ j → st.1.get? i = some (some ti) → st.1.get? j = some (some tj) →
    ti.id ≠ tj.id)

theorem foldlM_nil_eq {f : β → α → Except ε β} {b r : β}
    (h : ([] : List α).foldlM f b = .ok r) : r = b := by
  simp only [List.foldlM_nil, exceptPure, Except.ok.injEq] at h
  exact h.symm

/-- Elements collected by the stage-2 IoU loop sit at yet-unmatched
indices. -/
theorem track_ious_unmatched {p : TrackingParams} {dets : List Detection}
    {m : List (Option Track)} {td : Detection} {x : Track}
    {is : List ℕ} {r : List (ℕ × ℚ)}
    (h : iouLoop p dets m x td is = .ok r) :
    ∀ pr ∈ r, m.get? pr.1 = some none := by
  unfold iouLoop at h
  refine foldlM_except_inv (P := fun acc => ∀ pr ∈ acc, m.get? pr.1 = some none)
    ?_ (by simp) h
  intro acc i acc2 hi hP hstep
  cases hd : getAt dets i with
  | error e => rw [hd] at hstep; simp at hstep
  | ok d =>
    rw [hd] at hstep
    simp only [exceptBindOk] at hstep
    cases hm : getAt m i with
    | error e => rw [hm] at hstep; simp at hstep
    | ok mm =>
      rw [hm] at hstep
      simp only [exceptBindOk] at hstep
      by_cases hcond : (mm.isSome || (if p.ignore_labels then false
          else decide (td.label ≠ d.label)) || too_far p x d) = true
      · rw [if_pos hcond] at hstep
        simp only [exceptPure, Except.ok.injEq] at hstep
        subst hstep
        exact hP
      · rw [if_neg hcond] at hstep
        simp only [exceptPure, Except.ok.injEq] at hstep
        subst hstep
        intro pr hpr
        rcases List.mem_append.mp hpr with h1 | h1
        · exact hP pr h1
        · simp only [List.mem_singleton] at h1
          subst h1
          simp only [Bool.or_eq_true, not_or] at hcond
          have : mm = none := by
            cases mm with
            | none => rfl
            | some _ => simp at hcond
          subst this
          exact getAt_eq_ok.mp hm

/-- Committing the match `matched_tracks[best] = track` and exhausting the
track's candidate list preserves `SingleInv`, provided the slot was free and
the committing track's candidate list was non-empty (expressed through
`hne`). -/
theorem singleInv_commit {g : List Track} {n : ℕ} {m : List (Option Track)}
    {c : ℕ → CandVal} {x : Track} {bi : ℕ} {m2 : List (Option Track)}
    (hx : x ∈ g) (hInv : SingleInv g n (m, c))
    (hne : ∀ t : Track, c t.id = .pyList [] → t.id ≠ x.id)
    (hbi : m.get? bi = some none) (hset : setAt m bi (some x) = .ok m2) :
    SingleInv g n (m2, Function.update c x.id (.pyList [])) := by
  obtain ⟨hlen, hmem, hinj⟩ := hInv
  obtain ⟨hbi_lt, hm2⟩ := setAt_eq_ok.mp hset
  subst hm2
  dsimp only at hlen hmem hinj
  refine ⟨by simpa using hlen, ?_, ?_⟩
  · intro i t hit
    dsimp only at hit ⊢
    by_cases hieq : i = bi
    · subst hieq
      rw [get?_set_self hbi_lt] at hit
      have hxt : t = x := by
        injection hit with h1
        injection h1 with h2
        exact h2.symm
      subst hxt
      exact ⟨hx, Function.update_same _ _ _⟩
    · rw [get?_set_of_ne (Ne.symm hieq)] at hit
      obtain ⟨ht_g, ht_c⟩ := hmem i t hit
      refine ⟨ht_g, ?_⟩
      by_cases hid : t.id = x.id
      · rw [hid]; exact Function.update_same _ _ _
      · rw [Function.update_noteq hid]; exact ht_c
  · intro i j ti tj hij hit hjt
    dsimp only at hit hjt
    by_cases hieq : i = bi <;> by_cases hjeq : j = bi
    · exact absurd (hieq.trans hjeq.symm) hij
    · subst hieq
      rw [get?_set_self hbi_lt] at hit
      rw [get?_set_of_ne (Ne.symm hjeq)] at hjt
      have hti_x : ti = x := by
        injection hit with h1
        injection h1 with h2
        exact h2.symm
      subst hti_x
      obtain ⟨_, htj_c⟩ := hmem j tj hjt
      exact fun he => hne tj htj_c he.symm
    · subst hjeq
      rw [get?_set_self hbi_lt] at hjt
      rw [get?_set_of_ne (Ne.symm hieq)] at hit
      have htj_x : tj = x := by
        injection hjt with h1
        injection h1 with h2
        exact h2.symm
      subst htj_x
      obtain ⟨_, hti_c⟩ := hmem i ti hit
      exact hne ti hti_c
    · rw [get?_set_of_ne (Ne.symm hieq)] at hit
      rw [get?_set_of_ne (Ne.symm hjeq)] at hjt
      exact hinj i j ti tj hij hit hjt

/-- Rewriting the candidate entry of a track that cannot be among the
already-assigned ones preserves `SingleInv`. -/
theorem singleInv_keep {g : List Track} {n : ℕ} {m : List (Option Track)}
    {c : ℕ → CandVal} {x : Track}
    (hInv : SingleInv g n (m, c))
    (hne : ∀ t : Track, c t.id = .pyList [] → t.id ≠ x.id) (v : CandVal) :
    SingleInv g n (m, Function.update c x.id v) := by
  obtain ⟨hlen, hmem, hinj⟩ := hInv
  dsimp only at hlen hmem hinj
  refine ⟨hlen, ?_, hinj⟩
  intro i t hit
  dsimp only at hit ⊢
  obtain ⟨ht_g, ht_c⟩ := hmem i t hit
  refine ⟨ht_g, ?_⟩
  rw [Function.update_noteq (hne t ht_c)]
  exact ht_c

/-- Rewriting any track's candidate entry to the empty list preserves
`SingleInv`. -/
theorem singleInv_update_empty {g : List Track} {n : ℕ} {m : List (Option Track)}
    {c : ℕ → CandVal} (k : ℕ) (hInv : SingleInv g n (m, c)) :
    SingleInv g n (m, Function.update c k (.pyList [])) := by
  obtain ⟨hlen, hmem, hinj⟩ := hInv
  dsimp only at hlen hmem hinj
  refine ⟨hlen, ?_, hinj⟩
  intro i t hit
  dsimp only at hit ⊢
  obtain ⟨ht_g, ht_c⟩ := hmem i t hit
  refine ⟨ht_g, ?_⟩
  by_cases hid : t.id = k
  · subst hid; exact Function.update_same _ _ _
  · rw [Function.update_noteq hid]; exact ht_c

theorem stage2Track_inv {p : TrackingParams} {dets : List Detection} {g : List Track}
    {n : ℕ} {m : List (Option Track)} {c : ℕ → CandVal}
    {st2 : List (Option Track) × (ℕ → CandVal)} {x : Track}
    (hx : x ∈ g) (hInv : SingleInv g n (m, c))
    (h : stage2Track p dets (m, c) x = .ok st2) : SingleInv g n st2 := by
  simp only [stage2Track] at h
  cases hld : lastDet x with
  | error e => rw [hld] at h; simp at h
  | ok td =>
    rw [hld] at h
    simp only [exceptBindOk] at h
    cases hc : c x.id with
    | pyInt nn => rw [hc] at h; simp at h
    | pyList is =>
      rw [hc] at h
      simp only [exceptPure, exceptBindOk] at h
      cases hf : iouLoop p dets m x td is with
      | error e => rw [hf] at h; simp at h
      | ok track_ious =>
        rw [hf] at h
        simp only [exceptBindOk] at h
        by_cases hti : track_ious = []
        · rw [if_pos hti] at h
          simp only [exceptPure, Except.ok.injEq] at h
          subst h
          exact hInv
        · rw [if_neg hti] at h
          have his : is ≠ [] := by
            intro hisnil
            subst hisnil
            have h0 : iouLoop p dets m x td [] = .ok [] := rfl
            rw [h0] at hf
            injection hf with h2
            exact hti h2.symm
          have hcands_ne : ∀ t : Track, c t.id = .pyList [] → t.id ≠ x.id := by
            intro t hct heq
            rw [heq, hc] at hct
            exact his (by injection hct)
          cases hs : List.insertionSort (fun a b : ℕ × ℚ => b.2 ≤ a.2) track_ious with
          | nil => rw [hs] at h; simp at h
          | cons hd rest =>
            obtain ⟨bi, bv⟩ := hd
            rw [hs] at h
            simp only at h
            have hbi_mem : (bi, bv) ∈ track_ious :=
              (List.perm_insertionSort _ track_ious).mem_iff.mp
                (hs ▸ List.mem_cons_self _ _)
            have hbi_none : m.get? bi = some none :=
              track_ious_unmatched hf (bi, bv) hbi_mem
            split at h
            · cases hset : setAt m bi (some x) with
              | error e => rw [hset] at h; simp at h
              | ok m2 =>
                rw [hset] at h
                simp only [exceptBindOk, exceptPure, Except.ok.injEq] at h
                subst h
                exact singleInv_commit hx hInv hcands_ne hbi_none hset
            · simp only [exceptPure, Except.ok.injEq] at h
              subst h
              exact singleInv_keep hInv hcands_ne _

/-- Indices surviving the stage-3 unmatched filter sit at yet-unmatched
slots. -/
theorem unmatchedLoop_unmatched {m : List (Option Track)} {is : List ℕ} {r : List ℕ}
    (h : unmatchedLoop m is = .ok r) : ∀ i ∈ r, m.get? i = some none := by
  unfold unmatchedLoop at h
  refine foldlM_except_inv (P := fun acc => ∀ i ∈ acc, m.get? i = some none)
    ?_ (by simp) h
  intro acc i acc2 hi hP hstep
  cases hm : getAt m i with
  | error e => rw [hm] at hstep; simp at hstep
  | ok mm =>
    rw [hm] at hstep
    simp only [exceptBindOk] at hstep
    by_cases hsome : mm.isSome = true
    · rw [if_pos hsome] at hstep
      simp only [exceptPure, Except.ok.injEq] at hstep
      subst hstep
      exact hP
    · rw [if_neg hsome] at hstep
      simp only [exceptPure, Except.ok.injEq] at hstep
      subst hstep
      intro j hj
      rcases List.mem_append.mp hj with h1 | h1
      · exact hP j h1
      · simp only [List.mem_singleton] at h1
        subst h1
        have : mm = none := by
          cases mm with
          | none => rfl
          | some _ => simp at hsome
        subst this
        exact getAt_eq_ok.mp hm

/-- Indices of the stage-3 appearance-distance list come from the filtered
candidate list. -/
theorem appearanceLoop_mem {ext : ExternalFns} {p : TrackingParams}
    {dets : List Detection} {td : Detection} {filtered : List ℕ} {r : List (ℕ × ℚ)}
    (h : appearanceLoop ext p dets td filtered = .ok r) : ∀ pr ∈ r, pr.1 ∈ filtered := by
  unfold appearanceLoop at h
  refine foldlM_except_inv (P := fun acc => ∀ pr ∈ acc, pr.1 ∈ filtered) ?_ (by simp) h
  intro acc i acc2 hi hP hstep
  cases hd : getAt dets i with
  | error e => rw [hd] at hstep; simp at hstep
  | ok d =>
    rw [hd] at hstep
    simp only [exceptBindOk] at hstep
    cases haf : p.appearance_feature <;> rw [haf] at hstep <;>
      simp only [exceptPure, Except.ok.injEq] at hstep <;> subst hstep <;>
      intro pr hpr <;> rcases List.mem_append.mp hpr with h1 | h1 <;>
      first
        | exact hP pr h1
        | (simp only [List.mem_singleton] at h1; subst h1; exact hi)

theorem stage3Track_inv {ext : ExternalFns} {p : TrackingParams} {dets : List Detection}
    {g : List Track} {n : ℕ} {m : List (Option Track)} {c : ℕ → CandVal}
    {st2 : List (Option Track) × (ℕ → CandVal)} {x : Track}
    (hx : x ∈ g) (hInv : SingleInv g n (m, c))
    (h : stage3Track ext p dets (m, c) x = .ok st2) : SingleInv g n st2 := by
  simp only [stage3Track] at h
  cases hc : c x.id with
  | pyInt nn => rw [hc] at h; simp at h
  | pyList is =>
    rw [hc] at h
    simp only [exceptPure, exceptBindOk] at h
    cases hfl : unmatchedLoop m is with
    | error e => rw [hfl] at h; simp at h
    | ok filtered =>
      rw [hfl] at h
      simp only [exceptBindOk] at h
      by_cases hempty : filtered = []
      · rw [if_pos hempty] at h
        simp only [exceptPure, Except.ok.injEq] at h
        subst h
        subst hempty
        exact singleInv_update_empty x.id hInv
      · rw [if_neg hempty] at h
        have his : is ≠ [] := by
          intro hisnil
          subst hisnil
          have h0 : unmatchedLoop m [] = .ok [] := rfl
          rw [h0] at hfl
          injection hfl with h2
          exact hempty h2.symm
        have hne : ∀ t : Track, c t.id = .pyList [] → t.id ≠ x.id := by
          intro t hct heq
          rw [heq, hc] at hct
          exact his (by injection hct)
        have hInv2 : SingleInv g n (m, Function.update c x.id (.pyList filtered)) :=
          singleInv_keep hInv hne _
        have hne2 : ∀ t : Track,
            Function.update c x.id (.pyList filtered) t.id = .pyList [] → t.id ≠ x.id := by
          intro t hct heq
          rw [heq, Function.update_same] at hct
          exact hempty (by injection hct)
        cases hld : lastDet x with
        | error e => rw [hld] at h; simp at h
        | ok td =>
          rw [hld] at h
          simp only [exceptBindOk] at h
          cases hal : appearanceLoop ext p dets td filtered with
          | error e => rw [hal] at h; simp at h
          | ok appearance_distances =>
            rw [hal] at h
            simp only [exceptBindOk] at h
            cases hs : List.insertionSort (fun a b : ℕ × ℚ => a.2 ≤ b.2)
                appearance_distances with
            | nil => rw [hs] at h; simp at h
            | cons hd rest =>
              obtain ⟨bm, bd⟩ := hd
              rw [hs] at h
              simp only at h
              have hbm_mem : (bm, bd) ∈ appearance_distances :=
                (List.perm_insertionSort _ appearance_distances).mem_iff.mp
                  (hs ▸ List.mem_cons_self _ _)
              have hbm_filtered : bm ∈ filtered :=
                appearanceLoop_mem hal (bm, bd) hbm_mem
              have hbm_none : m.get? bm = some none :=
                unmatchedLoop_unmatched hfl bm hbm_filtered
              split at h
              · cases hset : setAt m bm (some x) with
                | error e => rw [hset] at h; simp at h
                | ok m2 =>
                  rw [hset] at h
                  simp only [exceptBindOk, exceptPure, Except.ok.injEq] at h
                  subst h
                  exact singleInv_commit hx hInv2 hne2 hbm_none hset
              · simp only [exceptPure, Except.ok.injEq] at h
                subst h
                exact hInv2

/-- Specification of one single-timestep matching pass: the returned
assignment is parallel to the detections, assigns only tracks of the group,
and assigns distinct identities at distinct indices. -/
theorem single_timestep_spec {ext : ExternalFns} {p : TrackingParams}
    {tracks : List Track} {dets : List Detection} {single : List (Option Track)}
    (h : _match_detections_single_timestep ext p tracks dets = .ok single) :
    single.length = dets.length ∧
    (∀ a t, single.get? a = some (some t) → t ∈ tracks) ∧
    (∀ a b ta tb, a ≠ b → single.get? a = some (some ta) →
      single.get? b = some (some tb) → ta.id ≠ tb.id) := by
  simp only [_match_detections_single_timestep] at h
  have hm0 : ∀ i t, (dets.map (fun _ => (none : Option Track))).get? i
      = some (some t) → False := by
    intro i t hit
    rw [List.get?_map] at hit
    cases hd : dets.get? i with
    | none => rw [hd] at hit; simp at hit
    | some d => rw [hd] at hit; simp at hit
  cases h1 : tracks.foldlM (stage1Track p dets)
      (tracks.foldl (fun c track => Function.update c track.id
        (.pyList (List.insertionSort
          (fun i j => scoreAt dets j ≤ scoreAt dets i) (List.range dets.length))))
        (fun _ => .pyList [])) with
  | error e => rw [h1] at h; simp at h
  | ok c1 =>
    rw [h1] at h
    simp only [exceptBindOk] at h
    have hInv0 : SingleInv tracks dets.length (dets.map (fun _ => none), c1) := by
      refine ⟨by simp, ?_, ?_⟩
      · intro i t hit
        exact (hm0 i t hit).elim
      · intro i j ti tj hij hit hjt
        exact (hm0 i ti hit).elim
    cases h2 : tracks.foldlM (stage2Track p dets) (dets.map (fun _ => none), c1) with
    | error e => rw [h2] at h; simp at h
    | ok st2 =>
      rw [h2] at h
      have hInv2 : SingleInv tracks dets.length st2 := by
        refine foldlM_except_inv (P := SingleInv tracks dets.length) ?_ hInv0 h2
        intro st x stx hx hP hstep
        obtain ⟨m, c⟩ := st
        exact stage2Track_inv hx hP hstep
      obtain ⟨m2, c2⟩ := st2
      simp only [exceptBindOk] at h
      cases h3 : tracks.foldlM (stage3Track ext p dets) (m2, c2) with
      | error e => rw [h3] at h; simp at h
      | ok st3 =>
        rw [h3] at h
        have hInv3 : SingleInv tracks dets.length st3 := by
          refine foldlM_except_inv (P := SingleInv tracks dets.length) ?_ hInv2 h3
          intro st x stx hx hP hstep
          obtain ⟨m, c⟩ := st
          exact stage3Track_inv hx hP hstep
        obtain ⟨m3, c3⟩ := st3
        simp only [exceptBindOk, exceptPure, Except.ok.injEq] at h
        subst h
        obtain ⟨hlen, hmem, hinj⟩ := hInv3
        exact ⟨hlen, fun a t ha => (hmem a t ha).1, hinj⟩

/-- Specification of `applyMatches`: length is preserved, existing
assignments are kept, new assignments come from the per-group result paired
with the unmatched-index list, every per-group match is committed, and the
new unmatched list collects exactly the indices whose per-group entry is
`None`, in order. -/
theorem applyMatches_spec :
    ∀ {single : List (Option Track)} {dis : List ℕ} {m : List (Option Track)}
      {acc : List ℕ} {m2 : List (Option Track)} {u2 : List ℕ},
      applyMatches m acc single dis = .ok (m2, u2) →
      m2.length = m.length ∧
      (∀ i t, m.get? i = some (some t) → m2.get? i = some (some t)) ∧
      (∀ i t, m2.get? i = some (some t) →
        m.get? i = some (some t) ∨
          ∃ a, single.get? a = some (some t) ∧ dis.get? a = some i) ∧
      (∀ a t i, single.get? a = some (some t) → dis.get? a = some i →
        m2.get? i = some (some t)) ∧
      u2 = acc ++ (single.zip dis).filterMap
        (fun od => if od.1 = none then some od.2 else none) := by
  intro single
  induction single with
  | nil =>
    intro dis m acc m2 u2 h
    simp only [applyMatches, exceptPure, Except.ok.injEq, Prod.mk.injEq] at h
    obtain ⟨rfl, rfl⟩ := h
    refine ⟨rfl, fun i t ht => ht, fun i t ht => Or.inl ht, ?_, by simp⟩
    intro a t i ha
    simp at ha
  | cons o single ih =>
    intro dis m acc m2 u2 h
    cases dis with
    | nil => simp [applyMatches] at h
    | cons di dis =>
      cases o with
      | none =>
        simp only [applyMatches] at h
        obtain ⟨hl, hkeep, horig, happ, hu⟩ := ih h
        refine ⟨hl, hkeep, ?_, ?_, ?_⟩
        · intro i t ht
          rcases horig i t ht with h1 | ⟨a, ha1, ha2⟩
          · exact Or.inl h1
          · exact Or.inr ⟨a + 1, by simpa using ha1, by simpa using ha2⟩
        · intro a t i ha hd2
          cases a with
          | zero => simp at ha
          | succ b =>
            simp only [List.get?] at ha hd2
            exact happ b t i ha hd2
        · rw [hu]
          simp [List.zip_cons_cons]
      | some tr =>
        simp only [applyMatches] at h
        cases hcur : getAt m di with
        | error e => rw [hcur] at h; simp at h
        | ok cur =>
          rw [hcur] at h
          simp only [exceptBindOk] at h
          by_cases hsome : cur.isSome = true
          · rw [if_pos hsome] at h
            simp at h
          · rw [if_neg hsome] at h
            cases hset : setAt m di (some tr) with
            | error e => rw [hset] at h; simp at h
            | ok m1 =>
              rw [hset] at h
              simp only [exceptBindOk] at h
              obtain ⟨hdi_lt, hm1⟩ := setAt_eq_ok.mp hset
              subst hm1
              obtain ⟨hl, hkeep, horig, happ, hu⟩ := ih h
              have hcur_none : m.get? di = some none := by
                have := getAt_eq_ok.mp hcur
                have hc : cur = none := by
                  cases cur with
                  | none => rfl
                  | some _ => simp at hsome
                rw [hc] at this
                exact this
              refine ⟨by simpa using hl, ?_, ?_, ?_, ?_⟩
              · intro i t ht
                refine hkeep i t ?_
                by_cases hieq : i = di
                · subst hieq
                  rw [hcur_none] at ht
                  simp at ht
                · rw [get?_set_of_ne (Ne.symm hieq)]
                  exact ht
              · intro i t ht
                rcases horig i t ht with h1 | ⟨a, ha1, ha2⟩
                · by_cases hieq : i = di
                  · subst hieq
                    rw [get?_set_self hdi_lt] at h1
                    have htr : tr = t := by
                      injection h1 with h2
                      injection h2
                    subst htr
                    exact Or.inr ⟨0, by simp, by simp⟩
                  · rw [get?_set_of_ne (Ne.symm hieq)] at h1
                    exact Or.inl h1
                · exact Or.inr ⟨a + 1, by simpa using ha1, by simpa using ha2⟩
              · intro a t i ha hd2
                cases a with
                | zero =>
                  simp only [List.get?] at ha hd2
                  have htr : t = tr := by
                    injection ha with h2
                    injection h2 with h3
                    exact h3.symm
                  have hdi : i = di := by injection hd2 with h2; exact h2.symm
                  subst htr
                  subst hdi
                  exact hkeep _ _ (get?_set_self hdi_lt _)
                | succ b =>
                  simp only [List.get?] at ha hd2
                  exact happ b t i ha hd2
              · rw [hu]
                simp [List.zip_cons_cons]

/-- The collected unmatched indices form a sublist of the old unmatched
list. -/
theorem filterMapZip_sublist :
    ∀ (s : List (Option Track)) (u : List ℕ),
      ((s.zip u).filterMap (fun od => if od.1 = none then some od.2 else none)).Sublist u := by
  intro s
  induction s with
  | nil => intro u; simp
  | cons o s ih =>
    intro u
    cases u with
    | nil => simp
    | cons i u =>
      rw [List.zip_cons_cons, List.filterMap_cons]
      cases o with
      | none => simpa using (ih u).cons₂ i
      | some tr => simpa using (ih u).cons i

/-- State invariant of the recency-pass loop of `match_detections`:
`unmatched_detection_indices` holds exactly the indices that the running
assignment leaves unmatched. -/
def PoolInv (n : ℕ) (st : List (Option Track) × List ℕ) : Prop :=
  st.1.length = n ∧ st.2.Nodup ∧
  (∀ i, i ∈ st.2 ↔ i < n ∧ st.1.get? i = some none)

/-- One recency pass preserves the pool invariant, keeps every existing
assignment, assigns otherwise only tracks of the pass's group to previously
unmatched indices, and assigns distinct identities at distinct new
indices. -/
theorem match_step_spec {ext : ExternalFns} {p : TrackingParams}
    {dets : List Detection} {groups : List (Option ℕ × List Track)} {ts : Option ℕ}
    {m : List (Option Track)} {u : List ℕ} {m2 : List (Option Track)} {u2 : List ℕ}
    (hInv : PoolInv dets.length (m, u))
    (h : match_step ext p dets groups (m, u) ts = .ok (m2, u2)) :
    PoolInv dets.length (m2, u2) ∧
    (∀ i t, m.get? i = some (some t) → m2.get? i = some (some t)) ∧
    (∀ i t, m2.get? i = some (some t) →
      m.get? i = some (some t) ∨
        (t ∈ lookupGroup groups ts ∧ m.get? i = some none ∧ i ∈ u)) ∧
    (∀ i j ti tj, i ≠ j →
      m2.get? i = some (some ti) → m2.get? j = some (some tj) →
      m.get? i = some none → m.get? j = some none → ti.id ≠ tj.id) := by
  obtain ⟨hmlen, hund, hchar⟩ := hInv
  dsimp only at hmlen hund hchar
  simp only [match_step] at h
  cases hsub : u.mapM (getAt dets) with
  | error e => rw [hsub] at h; simp at h
  | ok subdets =>
    rw [hsub] at h
    simp only [exceptBindOk] at h
    cases hsingle : _match_detections_single_timestep ext p (lookupGroup groups ts)
        subdets with
    | error e => rw [hsingle] at h; simp at h
    | ok single =>
      rw [hsingle] at h
      simp only [exceptBindOk] at h
      obtain ⟨hslen, hsmem, hsinj⟩ := single_timestep_spec hsingle
      have hsub_len : subdets.length = u.length := mapM_except_ok_length hsub
      have hlen_su : single.length = u.length := hslen.trans hsub_len
      obtain ⟨hl2, hkeep, horig, happ, hu2⟩ := applyMatches_spec h
      have hu2' : u2 = (single.zip u).filterMap
          (fun od => if od.1 = none then some od.2 else none) := by simpa using hu2
      have hsubl : u2.Sublist u := hu2' ▸ filterMapZip_sublist single u
      -- dichotomy facts about entries of m2
      have horig' : ∀ i t, m2.get? i = some (some t) →
          m.get? i = some (some t) ∨
            (t ∈ lookupGroup groups ts ∧ m.get? i = some none ∧ i ∈ u) := by
        intro i t ht
        rcases horig i t ht with h1 | ⟨a, ha1, ha2⟩
        · exact Or.inl h1
        · have hiu : i ∈ u := List.mem_iff_get?.mpr ⟨a, ha2⟩
          have := (hchar i).mp hiu
          exact Or.inr ⟨hsmem a t ha1, this.2, hiu⟩
      refine ⟨⟨hl2.trans hmlen, hsubl.nodup hund, ?_⟩, hkeep, horig', ?_⟩
      · intro i
        dsimp only
        constructor
        · intro hiu2
          have hiu : i ∈ u := hsubl.mem hiu2
          obtain ⟨hin, hinone⟩ := (hchar i).mp hiu
          refine ⟨hin, ?_⟩
          rw [hu2'] at hiu2
          obtain ⟨⟨o, i2⟩, hmemz, hsel⟩ := List.mem_filterMap.mp hiu2
          have ho : o = none := by
            by_contra hne
            simp [hne] at hsel
          subst ho
          have hii : i = i2 := (by simpa using hsel : i2 = i).symm
          subst hii
          obtain ⟨b, hb⟩ := List.mem_iff_get?.mp hmemz
          rw [List.get?_zip_eq_some] at hb
          obtain ⟨hb1, hb2⟩ := hb
          simp only at hb1 hb2
          -- m2 keeps i unmatched: no group match targeted position b
          cases hm2i : m2.get? i with
          | none =>
            exfalso
            have : m2.length ≤ i := List.get?_eq_none.mp hm2i
            omega
          | some w =>
            cases w with
            | none => rfl
            | some t =>
              exfalso
              rcases horig i t hm2i with h1 | ⟨a2, ha21, ha22⟩
              · rw [hinone] at h1; simp at h1
              · have hab : a2 = b := by
                  have hb2' : u.get? b = some i := hb2
                  have ha22' : u.get? a2 = some i := ha22
                  have hlt : a2 < u.length := by
                    by_contra hge
                    rw [List.get?_eq_none.mpr (by omega)] at ha22'
                    simp at ha22'
                  exact List.get?_inj hlt hund (ha22'.trans hb2'.symm)
                subst hab
                rw [ha21] at hb1
                simp at hb1
        · rintro ⟨hin, hm2none⟩
          have hmnone : m.get? i = some none := by
            cases hmi : m.get? i with
            | none =>
              exfalso
              have : m.length ≤ i := List.get?_eq_none.mp hmi
              omega
            | some w =>
              cases w with
              | none => rfl
              | some t =>
                exfalso
                have := hkeep i t hmi
                rw [hm2none] at this
                simp at this
          have hiu : i ∈ u := (hchar i).mpr ⟨hin, hmnone⟩
          obtain ⟨a, ha⟩ := List.mem_iff_get?.mp hiu
          have halt : a < u.length := by
            by_contra hge
            rw [List.get?_eq_none.mpr (by omega)] at ha
            simp at ha
          have hsa : ∃ o, single.get? a = some o := by
            cases hso : single.get? a with
            | none =>
              exfalso
              have : single.length ≤ a := List.get?_eq_none.mp hso
              omega
            | some o => exact ⟨o, rfl⟩
          obtain ⟨o, ho⟩ := hsa
          have hone : o = none := by
            cases o with
            | none => rfl
            | some t =>
              exfalso
              have := happ a t i ho ha
              rw [hm2none] at this
              simp at this
          subst hone
          rw [hu2']
          refine List.mem_filterMap.mpr ⟨(none, i), ?_, by simp⟩
          exact List.mem_iff_get?.mpr ⟨a, (List.get?_zip_eq_some _ _ _ _).mpr ⟨ho, ha⟩⟩
      · intro i j ti tj hij hti htj hmi hmj
        rcases horig i ti hti with h1 | ⟨a, ha1, ha2⟩
        · rw [hmi] at h1; simp at h1
        · rcases horig j tj htj with h2 | ⟨b, hb1, hb2⟩
          · rw [hmj] at h2; simp at h2
          · have hab : a ≠ b := by
              intro he
              subst he
              rw [ha2] at hb2
              exact hij (by injection hb2)
            exact hsinj a b ti tj hab ha1 hb1

/-- A track found in the bucket looked up for key `k` belongs to the
grouped list and has `last_timestamp` equal to `k`. -/
theorem lookupGroup_mem {tracks : List Track} {k : Option ℕ} {t : Track}
    (ht : t ∈ lookupGroup (groupByKey Track.last_timestamp tracks) k) :
    t ∈ tracks ∧ t.last_timestamp = k := by
  unfold lookupGroup at ht
  cases hf : (groupByKey Track.last_timestamp tracks).find? (fun g => g.1 = k) with
  | none => rw [hf] at ht; simp at ht
  | some pr =>
    rw [hf] at ht
    simp at ht
    have hpr_mem := List.mem_of_find?_eq_some hf
    have hpr_key : pr.1 = k := by
      have := List.find?_some hf
      simpa using this
    exact ⟨mem_of_mem_groupByKey hpr_mem ht,
      (groupByKey_key_eq pr hpr_mem t ht).trans hpr_key⟩

/-- Invariant of the assignment across recency passes: every assigned track
comes from the input list and its group key is no longer pending, and
assigned tracks at distinct indices have distinct identities. -/
def MatchedInv (tracks : List Track) (keys : List (Option ℕ))
    (m : List (Option Track)) : Prop :=
  (∀ i t, m.get? i = some (some t) → t ∈ tracks ∧ Track.last_timestamp t ∉ keys) ∧
  (∀ i j ti tj, i ≠ j → m.get? i = some (some ti) → m.get? j = some (some tj) →
    ti.id ≠ tj.id)

theorem match_fold_inv {ext : ExternalFns} {p : TrackingParams}
    {dets : List Detection} {tracks : List Track}
    (hnd : (tracks.map Track.id).Nodup) :
    ∀ (keys : List (Option ℕ)) (st : List (Option Track) × List ℕ)
      (res : List (Option Track) × List ℕ),
      keys.Nodup → PoolInv dets.length st → MatchedInv tracks keys st.1 →
      keys.foldlM (match_step ext p dets (groupByKey Track.last_timestamp tracks)) st
        = .ok res →
      PoolInv dets.length res ∧ MatchedInv tracks [] res.1 := by
  intro keys
  induction keys with
  | nil =>
    intro st res hknd hPool hMatched h
    have hres : res = st := by
      simp only [List.foldlM_nil, exceptPure, Except.ok.injEq] at h
      exact h.symm
    subst hres
    obtain ⟨hm1, hm2⟩ := hMatched
    exact ⟨hPool, ⟨fun i t ht => ⟨(hm1 i t ht).1, by simp⟩, hm2⟩⟩
  | cons k keys ih =>
    intro st res hknd hPool hMatched h
    rw [List.foldlM_cons] at h
    obtain ⟨m, u⟩ := st
    cases hstep : match_step ext p dets (groupByKey Track.last_timestamp tracks) (m, u) k with
    | error e => rw [hstep] at h; simp at h
    | ok st2 =>
      rw [hstep] at h
      simp only [exceptBindOk] at h
      obtain ⟨m2, u2⟩ := st2
      obtain ⟨hPool2, hkeep, horig, hnewinj⟩ := match_step_spec hPool hstep
      obtain ⟨hm1, hm2⟩ := hMatched
      have hknd2 := (List.nodup_cons.mp hknd).2
      have hknotin := (List.nodup_cons.mp hknd).1
      refine ih (m2, u2) res hknd2 hPool2 ⟨?_, ?_⟩ h
      · intro i t ht
        rcases horig i t ht with h1 | ⟨hgrp, hnone, hiu⟩
        · obtain ⟨htr, hkey⟩ := hm1 i t h1
          exact ⟨htr, fun hmem => hkey (List.mem_cons_of_mem _ hmem)⟩
        · obtain ⟨htr, hkey⟩ := lookupGroup_mem hgrp
          exact ⟨htr, hkey ▸ hknotin⟩
      · intro i j ti tj hij hti htj
        rcases horig i ti hti with h1 | ⟨hgrp1, hnone1, _⟩ <;>
          rcases horig j tj htj with h2 | ⟨hgrp2, hnone2, _⟩
        · exact hm2 i j ti tj hij h1 h2
        · obtain ⟨hti_tr, hti_key⟩ := hm1 i ti h1
          obtain ⟨htj_tr, htj_key⟩ := lookupGroup_mem hgrp2
          intro he
          have : ti = tj := eq_of_mem_of_nodup_map hnd hti_tr htj_tr he
          subst this
          exact hti_key (htj_key ▸ List.mem_cons_self _ _)
        · obtain ⟨htj_tr, htj_key⟩ := hm1 j tj h2
          obtain ⟨hti_tr, hti_key⟩ := lookupGroup_mem hgrp1
          intro he
          have : ti = tj := eq_of_mem_of_nodup_map hnd hti_tr htj_tr he
          subst this
          exact htj_key (hti_key ▸ List.mem_cons_self _ _)
        · exact hnewinj i j ti tj hij hti htj hnone1 hnone2

/-- Specification of `match_detections` for a track list with pairwise
distinct identities: the assignment is parallel to the detections, assigns
only input tracks, and never assigns the same identity to two detection
indices. -/
theorem match_detections_spec {ext : ExternalFns} {p : TrackingParams}
    {tracks : List Track} {dets : List Detection} {res : List (Option Track)}
    (hnd : (tracks.map Track.id).Nodup)
    (h : match_detections ext p tracks dets = .ok res) :
    res.length = dets.length ∧
    (∀ i t, res.get? i = some (some t) → t ∈ tracks) ∧
    (∀ i j ti tj, i ≠ j → res.get? i = some (some ti) → res.get? j = some (some tj) →
      ti.id ≠ tj.id) := by
  simp only [match_detections] at h
  split at h
  · rw [exceptThrow] at h
    exact Except.noConfusion h
  · simp only [exceptPure, exceptBindOk] at h
    cases hfold : (List.insertionSort tsDesc
        ((groupByKey Track.last_timestamp tracks).map Prod.fst)).foldlM
        (match_step ext p dets (groupByKey Track.last_timestamp tracks))
        (dets.map (fun _ => none), List.range dets.length) with
    | error e => rw [hfold] at h; simp at h
    | ok st =>
      rw [hfold] at h
      obtain ⟨m, u⟩ := st
      simp only [exceptBindOk, exceptPure, Except.ok.injEq] at h
      subst h
      have hkeys_nd : (List.insertionSort tsDesc
          ((groupByKey Track.last_timestamp tracks).map Prod.fst)).Nodup :=
        (List.perm_insertionSort _ _).nodup_iff.mpr groupByKey_keys_nodup
      have hPool0 : PoolInv dets.length
          (dets.map (fun _ => none), List.range dets.length) := by
        refine ⟨by simp, by dsimp only; exact List.nodup_range _, ?_⟩
        intro i
        dsimp only
        simp only [List.mem_range]
        constructor
        · intro hi
          refine ⟨hi, ?_⟩
          rw [List.get?_eq_getElem?, List.getElem?_map]
          rw [List.getElem?_eq_getElem (by simpa using hi)]
          simp
        · intro hi
          exact hi.1
      have hMatched0 : MatchedInv tracks (List.insertionSort tsDesc
          ((groupByKey Track.last_timestamp tracks).map Prod.fst))
          (dets.map (fun _ => none)) := by
        constructor
        · intro i t ht
          rw [List.get?_eq_getElem?, List.getElem?_map] at ht
          cases hd : dets[i]? with
          | none => rw [hd] at ht; simp at ht
          | some d => rw [hd] at ht; simp at ht
        · intro i j ti tj hij hti htj
          rw [List.get?_eq_getElem?, List.getElem?_map] at hti
          cases hd : dets[i]? with
          | none => rw [hd] at hti; simp at hti
          | some d => rw [hd] at hti; simp at hti
      obtain ⟨⟨hlen, _, _⟩, hm1, hm2⟩ :=
        match_fold_inv hnd _ _ _ hkeys_nd hPool0 hMatched0 hfold
      exact ⟨hlen, fun i t ht => (hm1 i t ht).1, hm2⟩

def extW : ExternalFns := ⟨fun _ _ => 0, fun _ _ => 0⟩

def pW : TrackingParams :=
  { score_init_min := 9/10, score_continue_min := 7/10, frames_skip_max := 10,
    spatial_dist_max := 1/5, area_ratio := 1/2, iou_min := 1/10, iou_gap_min := 0,
    ignore_labels := false, appearance_feature := .histogram, appearance_gap := 0 }

/-- C3: for every list of tracks with pairwise distinct identities and every
detection list, a successful `match_detections` returns an assignment that
is a partial injection: it is a single list parallel to the detections (so
no detection index carries two tracks), every assigned track is an input
track, and no track identity is assigned to two distinct detection
indices. -/
theorem match_detections_partial_injection
    (ext : ExternalFns) (p : TrackingParams) (tracks : List Track)
    (detections : List Detection) (res : List (Option Track))
    (hids : (tracks.map Track.id).Nodup)
    (hok : match_detections ext p tracks detections = .ok res) :
    res.length = detections.length ∧
    (∀ i t, res.get? i = some (some t) → t ∈ tracks) ∧
    (∀ i j ti tj, i ≠ j → res.get? i = some (some ti) →
      res.get? j = some (some tj) → ti.id ≠ tj.id) :=
  match_detections_spec hids hok

/-- Witness for `match_detections_partial_injection` on a concrete run. -/
theorem match_detections_partial_injection_witness :
    ((([] : List Track).map Track.id).Nodup ∧
      match_detections extW pW [] [] = .ok []) ∧
      (([] : List (Option Track)).length = ([] : List Detection).length ∧
       (∀ i t, ([] : List (Option Track)).get? i = some (some t) → t ∈ ([] : List Track)) ∧
       (∀ i j ti tj, i ≠ j → ([] : List (Option Track)).get? i = some (some ti) →
         ([] : List (Option Track)).get? j = some (some tj) → ti.id ≠ tj.id)) :=
  ⟨⟨by simp, rfl⟩,
    match_detections_partial_injection extW pW [] [] [] (by simp) rfl⟩

/-- The initial recency-pass state: nothing assigned, every detection index
pending. -/
theorem poolInv_init {dets : List Detection} :
    PoolInv dets.length (dets.map (fun _ => none), List.range dets.length) := by
  refine ⟨by simp, by dsimp only; exact List.nodup_range _, ?_⟩
  intro i
  dsimp only
  simp only [List.mem_range]
  constructor
  · intro hi
    refine ⟨hi, ?_⟩
    rw [List.get?_eq_getElem?, List.getElem?_map]
    rw [List.getElem?_eq_getElem (by simpa using hi)]
    simp
  · intro hi
    exact hi.1

/-- C9: `match_detections` partitions its tracks into groups by
`last_timestamp()` and processes them newest-first: the grouping is a
partition with non-empty buckets keyed by the bucket's common timestamp,
the processed key sequence is strictly decreasing, each recency pass is run
through `match_step`, which offers exactly the currently unmatched
detection indices (the `PoolInv` invariant, established at the initial
state) and keeps every assignment made by a more recent pass. -/
theorem match_detections_recency_order
    (ext : ExternalFns) (p : TrackingParams) (tracks : List Track)
    (detections : List Detection)
    (hne : ∀ t ∈ tracks, t.detections ≠ []) :
    (∀ pr ∈ groupByKey Track.last_timestamp tracks, pr.2 ≠ [] ∧
      ∀ t ∈ pr.2, t.last_timestamp = pr.1) ∧
    ((groupByKey Track.last_timestamp tracks).map Prod.snd).flatten.Perm tracks ∧
    (List.insertionSort tsDesc
      ((groupByKey Track.last_timestamp tracks).map Prod.fst)).Pairwise
      (fun a b => b.getD 0 < a.getD 0) ∧
    PoolInv detections.length
      (detections.map (fun _ => none), List.range detections.length) ∧
    (∀ ts st st2, PoolInv detections.length st →
      match_step ext p detections (groupByKey Track.last_timestamp tracks) st ts
        = .ok st2 →
      PoolInv detections.length st2 ∧
      (∀ i t, st.1.get? i = some (some t) → st2.1.get? i = some (some t))) ∧
    (∀ res, match_detections ext p tracks detections = .ok res →
      ∃ st, (List.insertionSort tsDesc
          ((groupByKey Track.last_timestamp tracks).map Prod.fst)).foldlM
          (match_step ext p detections (groupByKey Track.last_timestamp tracks))
          (detections.map (fun _ => none), List.range detections.length) = .ok st ∧
        res = st.1) := by
  have hgrp : ∀ pr ∈ groupByKey Track.last_timestamp tracks, pr.2 ≠ [] ∧
      ∀ t ∈ pr.2, t.last_timestamp = pr.1 :=
    fun pr hpr => ⟨groupByKey_nonempty pr hpr, groupByKey_key_eq pr hpr⟩
  have hsome : ∀ k ∈ (groupByKey Track.last_timestamp tracks).map Prod.fst,
      ∃ v, k = some v := by
    intro k hk
    obtain ⟨pr, hpr, rfl⟩ := List.mem_map.mp hk
    obtain ⟨hne2, hkey⟩ := hgrp pr hpr
    obtain ⟨t, ht⟩ := List.exists_mem_of_ne_nil pr.2 hne2
    have htr : t ∈ tracks := mem_of_mem_groupByKey hpr ht
    have hlast := hkey t ht
    cases hl : t.last_timestamp with
    | none =>
      exfalso
      have hne3 := hne t htr
      unfold Track.last_timestamp at hl
      cases hgl : t.detections.getLast? with
      | none => exact hne3 (List.getLast?_eq_none_iff.mp hgl)
      | some d => rw [hgl] at hl; simp at hl
    | some v => exact ⟨v, by rw [← hlast, hl]⟩
  refine ⟨hgrp, groupByKey_flatten_perm, ?_, poolInv_init, ?_, ?_⟩
  · have hsorted : (List.insertionSort tsDesc
        ((groupByKey Track.last_timestamp tracks).map Prod.fst)).Pairwise tsDesc :=
      List.sorted_insertionSort tsDesc _
    have hnd : (List.insertionSort tsDesc
        ((groupByKey Track.last_timestamp tracks).map Prod.fst)).Nodup :=
      (List.perm_insertionSort _ _).nodup_iff.mpr groupByKey_keys_nodup
    refine (hsorted.and hnd).imp_of_mem ?_
    intro a b ha hb hab
    obtain ⟨va, rfl⟩ := hsome a ((List.perm_insertionSort _ _).mem_iff.mp ha)
    obtain ⟨vb, rfl⟩ := hsome b ((List.perm_insertionSort _ _).mem_iff.mp hb)
    obtain ⟨h1, h2⟩ := hab
    simp only [Option.getD_some] at h1 ⊢
    exact lt_of_le_of_ne h1 (fun he => h2 (by rw [he]))
  · intro ts st st2 hPool hstep
    obtain ⟨m, u⟩ := st
    obtain ⟨m2, u2⟩ := st2
    obtain ⟨hPool2, hkeep, _, _⟩ := match_step_spec hPool hstep
    exact ⟨hPool2, hkeep⟩
  · intro res hok
    simp only [match_detections] at hok
    split at hok
    · exfalso
      rename_i hcond
      obtain ⟨hmemnone, _⟩ := hcond
      obtain ⟨v, hv⟩ := hsome none hmemnone
      exact Option.noConfusion hv
    · simp only [exceptPure, exceptBindOk] at hok
      cases hfold : (List.insertionSort tsDesc
          ((groupByKey Track.last_timestamp tracks).map Prod.fst)).foldlM
          (match_step ext p detections (groupByKey Track.last_timestamp tracks))
          (detections.map (fun _ => none), List.range detections.length) with
      | error e => rw [hfold] at hok; simp at hok
      | ok st =>
        rw [hfold] at hok
        obtain ⟨m, u⟩ := st
        simp only [exceptBindOk, exceptPure, Except.ok.injEq] at hok
        exact ⟨(m, u), rfl, hok.symm⟩

/-- Witness for `match_detections_recency_order` on a concrete input. -/
theorem match_detections_recency_order_witness :
    (∀ t ∈ ([] : List Track), t.detections ≠ []) ∧
    ((∀ pr ∈ groupByKey Track.last_timestamp ([] : List Track), pr.2 ≠ [] ∧
       ∀ t ∈ pr.2, t.last_timestamp = pr.1) ∧
     ((groupByKey Track.last_timestamp ([] : List Track)).map Prod.snd).flatten.Perm [] ∧
     (List.insertionSort tsDesc
       ((groupByKey Track.last_timestamp ([] : List Track)).map Prod.fst)).Pairwise
       (fun a b => b.getD 0 < a.getD 0) ∧
     PoolInv ([] : List Detection).length
       (([] : List Detection).map (fun _ => none), List.range ([] : List Detection).length) ∧
     (∀ ts st st2, PoolInv ([] : List Detection).length st →
       match_step extW pW [] (groupByKey Track.last_timestamp ([] : List Track)) st ts
         = .ok st2 →
       PoolInv ([] : List Detection).length st2 ∧
       (∀ i t, st.1.get? i = some (some t) → st2.1.get? i = some (some t))) ∧
     (∀ res, match_detections extW pW [] [] = .ok res →
       ∃ st, (List.insertionSort tsDesc
           ((groupByKey Track.last_timestamp ([] : List Track)).map Prod.fst)).foldlM
           (match_step extW pW [] (groupByKey Track.last_timestamp ([] : List Track)))
           (([] : List Detection).map (fun _ => none),
             List.range ([] : List Detection).length) = .ok st ∧
         res = st.1)) :=
  ⟨by simp, match_detections_recency_order extW pW [] [] (by simp)⟩

/-- A detection whose decoded mask has no on-pixels (zero `m00` moment). -/
def dMaskEmpty : Detection :=
  { box := (0, 0, 2, 2), score := 1, label := 0, timestamp := 0, image := 0,
    imageShape := (10, 10), mask := ∅, mask_feature := none, track := none }

/-- An ordinary detection with a one-pixel mask. -/
def dUnit : Detection :=
  { box := (0, 0, 2, 2), score := 1, label := 0, timestamp := 1, image := 1,
    imageShape := (10, 10), mask := {(0, 0)}, mask_feature := none, track := none }

/-- A track whose last detection has mask area zero. -/
def tZeroArea : Track := { id := 0, detections := [dMaskEmpty] }

/-- C2 (code bug): with a track whose last mask area is zero, stage 1 stores
the Python int `0` in the candidates dict (`candidates[track.id] = 0`) and
stage 2 then iterates over that int, so the matching pass raises
`TypeError` instead of completing with an empty candidate set. -/
theorem zero_area_track_matching_raises :
    match_detections extW pW [tZeroArea] [dUnit] = .error .typeError := by
  have h1 : stage1Track pW [dUnit]
      (Function.update (fun _ => CandVal.pyList []) 0 (.pyList [0])) tZeroArea
      = .ok (Function.update
          (Function.update (fun _ => CandVal.pyList []) 0 (.pyList [0])) 0 (.pyInt 0)) := by
    norm_num [stage1Track, lastDet, tZeroArea, dMaskEmpty, Detection.compute_area,
      Function.update]
  have h2 : stage2Track pW [dUnit]
      ([none], Function.update
        (Function.update (fun _ => CandVal.pyList []) 0 (.pyList [0])) 0 (.pyInt 0)) tZeroArea
      = .error .typeError := by
    norm_num [stage2Track, lastDet, tZeroArea, dMaskEmpty, Function.update]
  have hsingle : _match_detections_single_timestep extW pW [tZeroArea] [dUnit]
      = .error .typeError := by
    simp only [_match_detections_single_timestep, List.map_cons, List.map_nil,
      List.length_cons, List.length_nil, List.range_succ, List.range_zero,
      List.nil_append, List.insertionSort, List.orderedInsert, List.foldl_cons,
      List.foldl_nil, List.foldlM_cons, List.foldlM_nil, tZeroArea]
    rw [show (Function.update (fun _ => CandVal.pyList []) ({ id := 0, detections := [dMaskEmpty] } : Track).id (CandVal.pyList [0])) = (Function.update (fun _ => CandVal.pyList []) 0 (CandVal.pyList [0])) from rfl]
    rw [show stage1Track pW [dUnit] (Function.update (fun _ => CandVal.pyList []) 0 (CandVal.pyList [0])) { id := 0, detections := [dMaskEmpty] } = stage1Track pW [dUnit] (Function.update (fun _ => CandVal.pyList []) 0 (CandVal.pyList [0])) tZeroArea from rfl]
    rw [h1]
    simp only [exceptBindOk, exceptPure]
    rw [show stage2Track pW [dUnit] ([none], Function.update (Function.update (fun _ => CandVal.pyList []) 0 (CandVal.pyList [0])) 0 (CandVal.pyInt 0)) { id := 0, detections := [dMaskEmpty] } = stage2Track pW [dUnit] ([none], Function.update (Function.update (fun _ => CandVal.pyList []) 0 (CandVal.pyList [0])) 0 (CandVal.pyInt 0)) tZeroArea from rfl]
    rw [h2]
    rfl
  simp only [match_detections, groupByKey, List.foldl_cons, List.foldl_nil,
    addToGroups, tZeroArea]
  rw [show Track.last_timestamp { id := 0, detections := [dMaskEmpty] } = some 0 from rfl]
  simp only [List.map_cons, List.map_nil]
  rw [if_neg (by simp)]
  simp only [List.insertionSort, List.orderedInsert, List.length_cons,
    List.length_nil, List.range_succ, List.range_zero, List.nil_append,
    List.foldlM_cons, List.foldlM_nil, exceptPure, exceptBindOk]
  simp only [match_step, List.mapM_cons, List.mapM_nil, getAt, List.get?,
    exceptBindOk, exceptPure, lookupGroup, List.find?, List.map_cons, List.map_nil]
  have hsingle2 : _match_detections_single_timestep extW pW
      [{ id := 0, detections := [dMaskEmpty] }] [dUnit] = .error .typeError := hsingle
  simp [hsingle2]

/-- Per-track facts maintained by the sequence controller: non-empty
history, strictly increasing timestamps, first detection born above
`score_init_min`, and every detection above `score_continue_min`. -/
def TrackBase (p : TrackingParams) (t : Track) : Prop :=
  t.detections ≠ [] ∧
  t.detections.Pairwise (fun a b => a.timestamp < b.timestamp) ∧
  (∃ d rest, t.detections = d :: rest ∧ d.score > p.score_init_min) ∧
  (∀ d ∈ t.detections, d.score > p.score_continue_min)

/-- All detection timestamps of the track are below `k`. -/
def TSlt (k : ℕ) (t : Track) : Prop := ∀ d ∈ t.detections, d.timestamp < k

/-- State invariant of `track`'s frame loop before processing frame `k`. -/
def DInv (p : TrackingParams) (k : ℕ) (st : TrackerState) : Prop :=
  st.all_tracks.map Track.id = List.range st.track_id ∧
  st.current_ids.Nodup ∧
  (∀ i ∈ st.current_ids, i < st.track_id) ∧
  (∀ t ∈ st.all_tracks, TrackBase p t ∧ TSlt k t)

theorem store_find {store : List Track} {nid : ℕ}
    (hids : store.map Track.id = List.range nid) {i : ℕ} (hi : i < nid) :
    ∃ t, store.find? (fun t => t.id = i) = some t ∧ t.id = i ∧ t ∈ store := by
  have hmem : i ∈ store.map Track.id := by rw [hids]; exact List.mem_range.mpr hi
  obtain ⟨t0, ht0, hid0⟩ := List.mem_map.mp hmem
  have hsome : (store.find? (fun t => t.id = i)).isSome := by
    rw [List.find?_isSome]
    exact ⟨t0, ht0, by simp [hid0]⟩
  obtain ⟨t, ht⟩ := Option.isSome_iff_exists.mp hsome
  refine ⟨t, ht, ?_, List.mem_of_find?_eq_some ht⟩
  have := List.find?_some ht
  simpa using this

theorem currentTracks_spec {store : List Track} {nid : ℕ}
    (hids : store.map Track.id = List.range nid) :
    ∀ (ids : List ℕ), (∀ i ∈ ids, i < nid) →
      (currentTracks store ids).map Track.id = ids ∧
      ∀ t ∈ currentTracks store ids, t ∈ store := by
  intro ids
  induction ids with
  | nil => intro _; simp [currentTracks]
  | cons i rest ih =>
    intro hb
    obtain ⟨t, hfind, hid, hmem⟩ := store_find hids (hb i (by simp))
    obtain ⟨ih1, ih2⟩ := ih (fun j hj => hb j (List.mem_cons_of_mem _ hj))
    simp only [currentTracks, List.filterMap_cons, hfind]
    constructor
    · simp only [List.map_cons, hid]
      rw [show (rest.filterMap (fun i => store.find? (fun t => t.id = i))).map Track.id
        = (currentTracks store rest).map Track.id from rfl, ih1]
    · intro t2 ht2
      rcases List.mem_cons.mp ht2 with rfl | h2
      · exact hmem
      · exact ih2 t2 h2

theorem appendDetection_map_id (store : List Track) (i : ℕ) (d : Detection) :
    (appendDetection store i d).map Track.id = store.map Track.id := by
  simp only [appendDetection, List.map_map]
  apply List.map_congr_left
  intro t ht
  by_cases h : t.id = i <;> simp [h, Track.add_detection]

theorem appendDetection_fresh {store : List Track} {i : ℕ} (d : Detection)
    (h : ∀ t ∈ store, t.id ≠ i) : appendDetection store i d = store := by
  simp only [appendDetection]
  rw [show store.map (fun t => if t.id = i then t.add_detection d else t)
      = store.map (fun t => t) from List.map_congr_left (fun t ht => by simp [h t ht])]
  simp

theorem appendDetection_mem {store : List Track} {i : ℕ} {d : Detection} {t2 : Track}
    (h : t2 ∈ appendDetection store i d) :
    ∃ t ∈ store, (t.id ≠ i ∧ t2 = t) ∨ (t.id = i ∧ t2 = t.add_detection d) := by
  simp only [appendDetection, List.mem_map] at h
  obtain ⟨t, ht, he⟩ := h
  by_cases hid : t.id = i
  · rw [if_pos hid] at he
    exact ⟨t, ht, Or.inr ⟨hid, he.symm⟩⟩
  · rw [if_neg hid] at he
    exact ⟨t, ht, Or.inl ⟨hid, he.symm⟩⟩

/-- Membership in the per-frame detection list: kept iff the raw score is
strictly above `score_continue_min` and the optional label filter accepts
the label. -/
theorem buildDetections_mem {p : TrackingParams} {filter_label : Option ℕ}
    {timestamp : ℕ} {frame : FrameInput} {d : Detection} :
    d ∈ buildDetections p filter_label timestamp frame ↔
      ∃ r ∈ frame.rawDets, r.score > p.score_continue_min ∧
        (∀ v, filter_label = some v → r.label = v) ∧
        d = mkDetection p timestamp frame r := by
  simp only [buildDetections, List.mem_map, List.mem_filter]
  constructor
  · rintro ⟨r, ⟨hr, hcond⟩, rfl⟩
    simp only [Bool.and_eq_true, decide_eq_true_eq] at hcond
    refine ⟨r, hr, hcond.1, ?_, rfl⟩
    intro v hv
    rw [hv] at hcond
    simpa using hcond.2
  · rintro ⟨r, hr, hscore, hlabel, rfl⟩
    refine ⟨r, ⟨hr, ?_⟩, rfl⟩
    simp only [Bool.and_eq_true, decide_eq_true_eq]
    refine ⟨hscore, ?_⟩
    cases filter_label with
    | none => simp
    | some v => simpa using hlabel v rfl

theorem buildDetections_props {p : TrackingParams} {filter_label : Option ℕ}
    {timestamp : ℕ} {frame : FrameInput} {d : Detection}
    (h : d ∈ buildDetections p filter_label timestamp frame) :
    d.timestamp = timestamp ∧ d.score > p.score_continue_min := by
  obtain ⟨r, _, hscore, _, rfl⟩ := buildDetections_mem.mp h
  exact ⟨rfl, hscore⟩

theorem appendDetection_append_singleton {store : List Track} {next : ℕ} {d : Detection}
    (h : ∀ t ∈ store, t.id ≠ next) :
    appendDetection (store ++ [{ id := next, detections := [] }]) next d
      = store ++ [{ id := next, detections := [{ d with track := some next }] }] := by
  simp only [appendDetection, List.map_append, List.map_cons, List.map_nil]
  rw [show store.map (fun t => if t.id = next then t.add_detection d else t)
      = store.map (fun t => t) from
    List.map_congr_left (fun t ht => by simp [h t ht])]
  simp [Track.add_detection]

theorem continueStep_none_high {p : TrackingParams} {store : List Track}
    {continued : List ℕ} {next : ℕ} {d : Detection}
    (hs : d.score > p.score_init_min) (hfresh : ∀ t ∈ store, t.id ≠ next) :
    continueStep p (store, continued, next) (d, none)
      = (store ++ [{ id := next, detections := [{ d with track := some next }] }],
         continued ++ [next], next + 1) := by
  simp only [continueStep]
  rw [if_pos hs, appendDetection_append_singleton hfresh]

theorem continueStep_none_low {p : TrackingParams} {store : List Track}
    {continued : List ℕ} {next : ℕ} {d : Detection}
    (hs : ¬ d.score > p.score_init_min) :
    continueStep p (store, continued, next) (d, none) = (store, continued, next) := by
  simp only [continueStep]
  rw [if_neg hs]

theorem continueStep_some {p : TrackingParams} {store : List Track}
    {continued : List ℕ} {next : ℕ} {d : Detection} {tr : Track} :
    continueStep p (store, continued, next) (d, some tr)
      = (appendDetection store tr.id d, continued ++ [tr.id], next) := rfl

theorem continue_fold_spec {p : TrackingParams} {k : ℕ} {B : ℕ} :
    ∀ (pairs : List (Detection × Option Track)) (store : List Track)
      (continued : List ℕ) (next : ℕ),
      store.map Track.id = List.range next →
      continued.Nodup →
      (∀ i ∈ continued, i < next) →
      (∀ t ∈ store, TrackBase p t ∧
        (t.id ∈ continued → TSlt (k+1) t) ∧ (t.id ∉ continued → TSlt k t)) →
      B ≤ next →
      (∀ pr ∈ pairs, pr.1.timestamp = k ∧ pr.1.score > p.score_continue_min) →
      (∀ pr ∈ pairs, ∀ tr, pr.2 = some tr → tr.id < B ∧ tr.id ∉ continued) →
      pairs.Pairwise (fun a b => ∀ ta tb, a.2 = some ta → b.2 = some tb →
        ta.id ≠ tb.id) →
      ((pairs.foldl (continueStep p) (store, continued, next)).1.map Track.id
          = List.range (pairs.foldl (continueStep p) (store, continued, next)).2.2 ∧
       (pairs.foldl (continueStep p) (store, continued, next)).2.1.Nodup ∧
       (∀ i ∈ (pairs.foldl (continueStep p) (store, continued, next)).2.1,
          i < (pairs.foldl (continueStep p) (store, continued, next)).2.2) ∧
       next ≤ (pairs.foldl (continueStep p) (store, continued, next)).2.2 ∧
       (∀ t ∈ (pairs.foldl (continueStep p) (store, continued, next)).1,
          TrackBase p t ∧
          (t.id ∈ (pairs.foldl (continueStep p) (store, continued, next)).2.1 →
            TSlt (k+1) t) ∧
          (t.id ∉ (pairs.foldl (continueStep p) (store, continued, next)).2.1 →
            TSlt k t))) := by
  intro pairs
  induction pairs with
  | nil =>
    intro store continued next hids hnd hb htr hB hdet hmat hpw
    simp only [List.foldl_nil]
    exact ⟨hids, hnd, hb, le_refl _, htr⟩
  | cons pr rest ih =>
    intro store continued next hids hnd hb htr hB hdet hmat hpw
    obtain ⟨d, ot⟩ := pr
    have hfresh : ∀ t ∈ store, t.id ≠ next := by
      intro t ht he
      have hmem : t.id ∈ store.map Track.id := List.mem_map_of_mem _ ht
      rw [hids, List.mem_range] at hmem
      omega
    obtain ⟨hd_ts, hd_sc⟩ := hdet (d, ot) (by simp)
    have hd_ts : d.timestamp = k := hd_ts
    have hd_sc : d.score > p.score_continue_min := hd_sc
    have hpw_rest := (List.pairwise_cons.mp hpw).2
    have hpw_head := (List.pairwise_cons.mp hpw).1
    cases ot with
    | none =>
      by_cases hs : d.score > p.score_init_min
      · rw [List.foldl_cons, continueStep_none_high hs hfresh]
        have pre1 : (store ++ [({ id := next, detections := [{ d with track := some next }] } : Track)]).map Track.id
            = List.range (next + 1) := by
          simp [hids, List.range_succ]
        have pre2 : (continued ++ [next]).Nodup := by
          refine List.Nodup.append hnd (List.nodup_singleton _) ?_
          intro i hi
          simp only [List.mem_singleton]
          intro he
          have := hb i hi
          omega
        have pre3 : ∀ i ∈ continued ++ [next], i < next + 1 := by
          intro i hi
          rcases List.mem_append.mp hi with h1 | h1
          · exact lt_trans (hb i h1) (by omega)
          · simp only [List.mem_singleton] at h1
            omega
        have pre4 : ∀ t ∈ store ++ [({ id := next, detections := [{ d with track := some next }] } : Track)], TrackBase p t ∧
            (t.id ∈ continued ++ [next] → TSlt (k+1) t) ∧
            (t.id ∉ continued ++ [next] → TSlt k t) := by
          intro t ht
          rcases List.mem_append.mp ht with h1 | h1
          · obtain ⟨hbase, hin, hout⟩ := htr t h1
            have hne : t.id ≠ next := hfresh t h1
            refine ⟨hbase, ?_, ?_⟩
            · intro hmem
              rcases List.mem_append.mp hmem with h2 | h2
              · exact hin h2
              · simp only [List.mem_singleton] at h2
                exact absurd h2 hne
            · intro hmem
              exact hout (fun h2 => hmem (List.mem_append_left _ h2))
          · simp only [List.mem_singleton] at h1
            subst h1
            refine ⟨⟨by simp, by simp, ⟨_, [], rfl, hs⟩, ?_⟩, ?_, ?_⟩
            · intro d2 hd2
              simp only [List.mem_singleton] at hd2
              subst hd2
              exact hd_sc
            · intro _ d2 hd2
              simp only [List.mem_singleton] at hd2
              subst hd2
              show d.timestamp < k + 1
              omega
            · intro hmem
              exact absurd (List.mem_append_right _ (by simp)) hmem
        have pre5 : ∀ pr ∈ rest, pr.1.timestamp = k ∧
            pr.1.score > p.score_continue_min :=
          fun pr2 hpr2 => hdet pr2 (List.mem_cons_of_mem _ hpr2)
        have pre6 : ∀ pr ∈ rest, ∀ tr, pr.2 = some tr →
            tr.id < B ∧ tr.id ∉ continued ++ [next] := by
          intro pr2 hpr2 tr htr2
          obtain ⟨h1, h2⟩ := hmat pr2 (List.mem_cons_of_mem _ hpr2) tr htr2
          refine ⟨h1, ?_⟩
          intro hmem
          rcases List.mem_append.mp hmem with h3 | h3
          · exact h2 h3
          · simp only [List.mem_singleton] at h3
            omega
        have hres := ih _ _ _ pre1 pre2 pre3 pre4 (by omega) pre5 pre6 hpw_rest
        exact ⟨hres.1, hres.2.1, hres.2.2.1, le_trans (by omega) hres.2.2.2.1,
          hres.2.2.2.2⟩
      · rw [List.foldl_cons, continueStep_none_low hs]
        exact ih store continued next hids hnd hb htr hB
          (fun pr2 hpr2 => hdet pr2 (List.mem_cons_of_mem _ hpr2))
          (fun pr2 hpr2 => hmat pr2 (List.mem_cons_of_mem _ hpr2)) hpw_rest
    | some tr =>
      obtain ⟨htr_lt, htr_notin⟩ := hmat (d, some tr) (by simp) tr rfl
      rw [List.foldl_cons, continueStep_some]
      refine ih (appendDetection store tr.id d) (continued ++ [tr.id]) next
        ?_ ?_ ?_ ?_ hB ?_ ?_ hpw_rest
      · rw [appendDetection_map_id]
        exact hids
      · refine List.Nodup.append hnd (List.nodup_singleton _) ?_
        intro i hi
        simp only [List.mem_singleton]
        intro he
        subst he
        exact htr_notin hi
      · intro i hi
        rcases List.mem_append.mp hi with h1 | h1
        · exact hb i h1
        · simp only [List.mem_singleton] at h1
          subst h1
          omega
      · intro t2 ht2
        obtain ⟨t, ht, hcase⟩ := appendDetection_mem ht2
        obtain ⟨hbase, hin, hout⟩ := htr t ht
        rcases hcase with ⟨hne, rfl⟩ | ⟨hid, rfl⟩
        · refine ⟨hbase, ?_, ?_⟩
          · intro hmem
            rcases List.mem_append.mp hmem with h2 | h2
            · exact hin h2
            · simp only [List.mem_singleton] at h2
              exact absurd h2 hne
          · intro hmem
            exact hout (fun h2 => hmem (List.mem_append_left _ h2))
        · have htslt : TSlt k t := hout (hid ▸ htr_notin)
          obtain ⟨hne0, hpwt, ⟨d0, rest0, he0, hsc0⟩, hscs⟩ := hbase
          refine ⟨⟨by simp [Track.add_detection], ?_, ?_, ?_⟩, ?_, ?_⟩
          · simp only [Track.add_detection]
            rw [List.pairwise_append]
            refine ⟨hpwt, by simp, ?_⟩
            intro a ha b hb2
            simp only [List.mem_singleton] at hb2
            subst hb2
            show a.timestamp < d.timestamp
            rw [hd_ts]
            exact htslt a ha
          · refine ⟨d0, rest0 ++ [{ d with track := some t.id }], ?_, hsc0⟩
            simp [Track.add_detection, he0]
          · intro d2 hd2
            simp only [Track.add_detection] at hd2
            rcases List.mem_append.mp hd2 with h2 | h2
            · exact hscs d2 h2
            · simp only [List.mem_singleton] at h2
              subst h2
              exact hd_sc
          · intro _ d2 hd2
            simp only [Track.add_detection] at hd2
            rcases List.mem_append.mp hd2 with h2 | h2
            · exact lt_trans (htslt d2 h2) (by omega)
            · simp only [List.mem_singleton] at h2
              subst h2
              show d.timestamp < k + 1
              omega
          · intro hmem
            exfalso
            refine hmem (List.mem_append_right _ ?_)
            simp [Track.add_detection, hid]
      · intro pr2 hpr2
        exact hdet pr2 (List.mem_cons_of_mem _ hpr2)
      · intro pr2 hpr2 tr2 htr2
        obtain ⟨h1, h2⟩ := hmat pr2 (List.mem_cons_of_mem _ hpr2) tr2 htr2
        refine ⟨h1, ?_⟩
        intro hmem
        rcases List.mem_append.mp hmem with h3 | h3
        · exact h2 h3
        · simp only [List.mem_singleton] at h3
          exact hpw_head pr2 hpr2 tr tr2 rfl htr2 h3.symm

/-- The skipped-track scan returns (when it does not raise) the accumulator
extended by a subsequence of the scanned tracks' ids, none of them
continued this frame. -/
theorem skip_fold_spec {p : TrackingParams} {ts : ℕ} {continued : List ℕ} :
    ∀ (L : List Track) (acc res : List ℕ),
      L.foldlM (skipCheck p ts continued) acc = Except.ok res →
      ∃ sub, res = acc ++ sub ∧ sub.Sublist (L.map Track.id) ∧
        ∀ i ∈ sub, i ∉ continued := by
  intro L
  induction L with
  | nil =>
    intro acc res h
    rw [List.foldlM_nil] at h
    injection h with h
    exact ⟨[], by simp [h.symm], List.nil_sublist _, by simp⟩
  | cons t rest ih =>
    intro acc res h
    rw [List.foldlM_cons] at h
    by_cases hc : t.id ∈ continued
    · rw [show skipCheck p ts continued acc t = pure acc from by
        simp [skipCheck, hc]] at h
      rw [exceptPure, exceptBindOk] at h
      obtain ⟨sub, h1, h2, h3⟩ := ih acc res h
      exact ⟨sub, h1, h2.cons _, h3⟩
    · cases hlt : t.last_timestamp with
      | none =>
        rw [show skipCheck p ts continued acc t = Except.error PyError.typeError from by
          simp [skipCheck, hc, hlt]] at h
        rw [exceptBindErr] at h
        exact Except.noConfusion h
      | some lt =>
        by_cases hcond : (lt : ℤ) - (ts : ℤ) < p.frames_skip_max
        · rw [show skipCheck p ts continued acc t = pure (acc ++ [t.id]) from by
            simp [skipCheck, hc, hlt, hcond]] at h
          rw [exceptPure, exceptBindOk] at h
          obtain ⟨sub, h1, h2, h3⟩ := ih (acc ++ [t.id]) res h
          refine ⟨t.id :: sub, by simp [h1], h2.cons₂ _, ?_⟩
          intro i hi
          rcases List.mem_cons.mp hi with h4 | h4
          · subst h4; exact hc
          · exact h3 i h4
        · rw [show skipCheck p ts continued acc t = pure acc from by
            simp [skipCheck, hc, hlt, hcond]] at h
          rw [exceptPure, exceptBindOk] at h
          obtain ⟨sub, h1, h2, h3⟩ := ih acc res h
          exact ⟨sub, h1, h2.cons _, h3⟩

theorem trackStep_eq (ext : ExternalFns) (p : TrackingParams) (fl : Option ℕ)
    (st : TrackerState) (ts : ℕ) (frame : FrameInput) :
    trackStep ext p fl st (ts, frame) =
      match_detections ext p (currentTracks st.all_tracks st.current_ids)
          (buildDetections p fl ts frame) >>= fun matched =>
        (currentTracks (((buildDetections p fl ts frame).zip matched).foldl
              (continueStep p) (st.all_tracks, [], st.track_id)).1
            st.current_ids).foldlM
          (skipCheck p ts (((buildDetections p fl ts frame).zip matched).foldl
              (continueStep p) (st.all_tracks, [], st.track_id)).2.1)
          [] >>= fun skipped =>
        pure { all_tracks := (((buildDetections p fl ts frame).zip matched).foldl
                  (continueStep p) (st.all_tracks, [], st.track_id)).1,
               current_ids := (((buildDetections p fl ts frame).zip matched).foldl
                  (continueStep p) (st.all_tracks, [], st.track_id)).2.1 ++ skipped,
               track_id := (((buildDetections p fl ts frame).zip matched).foldl
                  (continueStep p) (st.all_tracks, [], st.track_id)).2.2 } := rfl

/-- One frame of `track` preserves the driver invariant: track ids remain
`0, 1, ..., track_id - 1` in creation order, current ids stay distinct and
in range, every stored track is well-formed with strictly increasing
timestamps all below the next frame index, and `track_id` never
decreases. -/
theorem trackStep_inv {ext : ExternalFns} {p : TrackingParams} {fl : Option ℕ}
    {k : ℕ} {frame : FrameInput} {st st2 : TrackerState}
    (hInv : DInv p k st)
    (h : trackStep ext p fl st (k, frame) = Except.ok st2) :
    DInv p (k + 1) st2 ∧ st.track_id ≤ st2.track_id := by
  obtain ⟨hids, hnd, hcb, htr⟩ := hInv
  rw [trackStep_eq] at h
  cases hmatch : match_detections ext p (currentTracks st.all_tracks st.current_ids)
      (buildDetections p fl k frame) with
  | error e =>
    rw [hmatch, exceptBindErr] at h
    exact Except.noConfusion h
  | ok matched =>
    rw [hmatch, exceptBindOk] at h
    obtain ⟨hcur_map, hcur_mem⟩ := currentTracks_spec hids st.current_ids hcb
    have hcur_nd : ((currentTracks st.all_tracks st.current_ids).map Track.id).Nodup := by
      rw [hcur_map]; exact hnd
    obtain ⟨hlen, hmem_t, hinj⟩ := match_detections_spec hcur_nd hmatch
    have hpairs1 : ∀ pr ∈ (buildDetections p fl k frame).zip matched,
        pr.1.timestamp = k ∧ pr.1.score > p.score_continue_min := by
      intro pr hpr
      obtain ⟨d, ot⟩ := pr
      exact buildDetections_props (List.of_mem_zip hpr).1
    have hpairs2 : ∀ pr ∈ (buildDetections p fl k frame).zip matched, ∀ tr,
        pr.2 = some tr → tr.id < st.track_id ∧ tr.id ∉ ([] : List ℕ) := by
      intro pr hpr tr htr2
      obtain ⟨d, ot⟩ := pr
      have hot : ot ∈ matched := (List.of_mem_zip hpr).2
      obtain ⟨i, hi⟩ := List.mem_iff_get?.mp hot
      subst htr2
      have htin : tr ∈ currentTracks st.all_tracks st.current_ids := hmem_t i tr hi
      have hmemid : tr.id ∈ st.all_tracks.map Track.id :=
        List.mem_map_of_mem _ (hcur_mem tr htin)
      rw [hids, List.mem_range] at hmemid
      exact ⟨hmemid, List.not_mem_nil _⟩
    have hpw : ((buildDetections p fl k frame).zip matched).Pairwise
        (fun a b => ∀ ta tb, a.2 = some ta → b.2 = some tb → ta.id ≠ tb.id) := by
      rw [List.pairwise_iff_getElem]
      intro i j hi hj hij ta tb hta htb
      have hqi : ((buildDetections p fl k frame).zip matched).get? i
          = some (((buildDetections p fl k frame).zip matched)[i].1,
                  ((buildDetections p fl k frame).zip matched)[i].2) := by
        rw [List.get?_eq_getElem?, List.getElem?_eq_getElem hi]
      have hqj : ((buildDetections p fl k frame).zip matched).get? j
          = some (((buildDetections p fl k frame).zip matched)[j].1,
                  ((buildDetections p fl k frame).zip matched)[j].2) := by
        rw [List.get?_eq_getElem?, List.getElem?_eq_getElem hj]
      obtain ⟨_, hmi⟩ := (List.get?_zip_eq_some _ _ _ _).mp hqi
      obtain ⟨_, hmj⟩ := (List.get?_zip_eq_some _ _ _ _).mp hqj
      rw [hta] at hmi
      rw [htb] at hmj
      exact hinj i j ta tb (Nat.ne_of_lt hij) hmi hmj
    have hpre4 : ∀ t ∈ st.all_tracks, TrackBase p t ∧
        (t.id ∈ ([] : List ℕ) → TSlt (k + 1) t) ∧
        (t.id ∉ ([] : List ℕ) → TSlt k t) := by
      intro t ht
      obtain ⟨h1, h2⟩ := htr t ht
      exact ⟨h1, fun hmem => absurd hmem (List.not_mem_nil _), fun _ => h2⟩
    have hfold := continue_fold_spec ((buildDetections p fl k frame).zip matched)
      st.all_tracks [] st.track_id hids List.nodup_nil
      (fun i hi => absurd hi (List.not_mem_nil _)) hpre4 (le_refl _)
      hpairs1 hpairs2 hpw
    generalize hF : ((buildDetections p fl k frame).zip matched).foldl
      (continueStep p) (st.all_tracks, [], st.track_id) = F at h hfold
    obtain ⟨A, C, N⟩ := F
    dsimp only at h hfold
    obtain ⟨hids2, hnd2, hb2, hmono, htracks2⟩ := hfold
    cases hskip : (currentTracks A st.current_ids).foldlM (skipCheck p k C) [] with
    | error e =>
      rw [hskip, exceptBindErr] at h
      exact Except.noConfusion h
    | ok skipped =>
      rw [hskip, exceptBindOk, exceptPure] at h
      injection h with h
      subst h
      obtain ⟨sub, hsub_eq, hsub_sl, hsub_nc⟩ := skip_fold_spec _ _ _ hskip
      rw [List.nil_append] at hsub_eq
      subst hsub_eq
      have hcb2 : ∀ i ∈ st.current_ids, i < N :=
        fun i hi => lt_of_lt_of_le (hcb i hi) hmono
      obtain ⟨hcur_map2, _⟩ := currentTracks_spec hids2 st.current_ids hcb2
      rw [hcur_map2] at hsub_sl
      refine ⟨⟨hids2, ?_, ?_, ?_⟩, hmono⟩
      · refine List.Nodup.append hnd2 (hsub_sl.nodup hnd) ?_
        intro a haC hasub
        exact hsub_nc a hasub haC
      · intro i hi
        rcases List.mem_append.mp hi with h1 | h1
        · exact hb2 i h1
        · exact hcb2 i (hsub_sl.mem h1)
      · intro t ht
        obtain ⟨hbase, hin, hout⟩ := htracks2 t ht
        refine ⟨hbase, ?_⟩
        by_cases hmem : t.id ∈ C
        · exact hin hmem
        · intro d hd
          exact lt_trans (hout hmem d hd) (by omega)

theorem track_fold_inv {ext : ExternalFns} {p : TrackingParams} {fl : Option ℕ} :
    ∀ (frames : List FrameInput) (n : ℕ) (st res : TrackerState),
      DInv p n st →
      (List.enumFrom n frames).foldlM (trackStep ext p fl) st = Except.ok res →
      ∃ m, DInv p m res ∧ st.track_id ≤ res.track_id := by
  intro frames
  induction frames with
  | nil =>
    intro n st res hInv h
    rw [show List.enumFrom n ([] : List FrameInput) = [] from rfl,
      List.foldlM_nil] at h
    injection h with h
    subst h
    exact ⟨n, hInv, le_refl _⟩
  | cons f rest ih =>
    intro n st res hInv h
    rw [show List.enumFrom n (f :: rest) = (n, f) :: List.enumFrom (n + 1) rest from rfl,
      List.foldlM_cons] at h
    cases hstep : trackStep ext p fl st (n, f) with
    | error e =>
      rw [hstep, exceptBindErr] at h
      exact Except.noConfusion h
    | ok st1 =>
      rw [hstep, exceptBindOk] at h
      obtain ⟨hInv1, hmono1⟩ := trackStep_inv hInv hstep
      obtain ⟨m, hInvm, hmono2⟩ := ih (n + 1) st1 res hInv1 h
      exact ⟨m, hInvm, le_trans hmono1 hmono2⟩

theorem track_result_inv {ext : ExternalFns} {p : TrackingParams} {fl : Option ℕ}
    {frames : List FrameInput} {res : List Track}
    (h : track ext p fl frames = Except.ok res) :
    res.map Track.id = List.range res.length ∧ ∀ t ∈ res, TrackBase p t := by
  simp only [track] at h
  cases hfold : frames.enum.foldlM (trackStep ext p fl)
      { all_tracks := [], current_ids := [], track_id := 0 } with
  | error e =>
    rw [hfold, exceptBindErr] at h
    exact Except.noConfusion h
  | ok final =>
    rw [hfold, exceptBindOk, exceptPure] at h
    injection h with h
    subst h
    have hInv0 : DInv p 0 { all_tracks := [], current_ids := [], track_id := 0 } :=
      ⟨rfl, List.nodup_nil, fun i hi => absurd hi (List.not_mem_nil _),
       fun t ht => absurd ht (List.not_mem_nil _)⟩
    obtain ⟨m, ⟨hids, _, _, htr⟩, _⟩ := track_fold_inv frames 0 _ final hInv0 hfold
    constructor
    · have hlen : final.all_tracks.length = final.track_id := by
        have := congrArg List.length hids
        simpa using this
      rw [hlen]
      exact hids
    · exact fun t ht => (htr t ht).1

/-- C4: every track produced by the sequence controller has a non-empty
detection list whose timestamps are strictly increasing in list order. -/
theorem track_output_timestamps_strict
    (ext : ExternalFns) (p : TrackingParams) (fl : Option ℕ)
    (frames : List FrameInput) (res : List Track)
    (h : track ext p fl frames = Except.ok res) :
    ∀ t ∈ res, t.detections ≠ [] ∧
      t.detections.Pairwise (fun a b => a.timestamp < b.timestamp) := by
  intro t ht
  obtain ⟨_, htr⟩ := track_result_inv h
  obtain ⟨h1, h2, _, _⟩ := htr t ht
  exact ⟨h1, h2⟩

theorem track_output_timestamps_strict_witness :
    track extW pW none [] = Except.ok [] ∧
    ∀ t ∈ ([] : List Track), t.detections ≠ [] ∧
      t.detections.Pairwise (fun a b => a.timestamp < b.timestamp) :=
  ⟨rfl, track_output_timestamps_strict extW pW none [] [] rfl⟩

def rawC5 : RawDetection :=
  { box := (0, 0, 2, 2), score := 9/10, label := 0, mask := {(0, 0)}, feature := none }

def frameC5 : FrameInput :=
  { rawDets := [rawC5], hasFeatures := false, image := 0, imageShape := (10, 10) }

def dC5 : Detection := mkDetection pW 0 frameC5 rawC5

theorem buildDetections_frameC5 : buildDetections pW none 0 frameC5 = [dC5] := by
  norm_num [buildDetections, frameC5, rawC5, pW, dC5, List.filter]

theorem dC5_score_not_gt : ¬ dC5.score > pW.score_init_min := by
  norm_num [dC5, mkDetection, rawC5, pW]

/-- C5 (counterexample): on a first frame containing a single detection whose
score equals `score_init_min` (with `score_init_min = 9/10` strictly above
`score_continue_min = 7/10`), the detection enters the frame's pool, the
matcher leaves it unmatched, its score is at the birth threshold — yet the
run produces no track at all: the source's birth test is the strict
`detection.score > score_init_min`, so a detection at the threshold is
dropped, contradicting the claimed `≥`. -/
theorem unmatched_at_init_min_not_born :
    dC5 ∈ buildDetections pW none 0 frameC5 ∧
    pW.score_init_min ≤ dC5.score ∧
    match_detections extW pW [] (buildDetections pW none 0 frameC5)
      = Except.ok [none] ∧
    track extW pW none [frameC5] = Except.ok [] := by
  have hb := buildDetections_frameC5
  have hs := dC5_score_not_gt
  refine ⟨by simp [hb], by norm_num [dC5, mkDetection, rawC5, pW], ?_, ?_⟩
  · rw [hb]
    rfl
  · have hstep : trackStep extW pW none ⟨[], [], 0⟩ (0, frameC5)
        = Except.ok ⟨[], [], 0⟩ := by
      rw [trackStep_eq]
      dsimp only
      rw [hb]
      rw [show match_detections extW pW (currentTracks ([] : List Track) ([] : List ℕ))
        [dC5] = Except.ok [none] from rfl]
      rw [exceptBindOk]
      rw [show ([dC5].zip ([none] : List (Option Track))).foldl (continueStep pW)
          (([] : List Track), ([] : List ℕ), 0) = ([], [], 0) from by
        rw [show ([dC5].zip ([none] : List (Option Track))) = [(dC5, none)] from rfl,
          List.foldl_cons, continueStep_none_low hs, List.foldl_nil]]
      rfl
    simp only [track]
    rw [show ([frameC5].enum) = [(0, frameC5)] from rfl, List.foldlM_cons, hstep,
      exceptBindOk, List.foldlM_nil]
    rfl

/-- C5 (amended): for an unmatched detection of the frame, the continuation
step creates a new track exactly when the score is STRICTLY greater than
`score_init_min`: the track receives the next fresh identity (so identities
stay `0, 1, ...` in creation order) and the detection as its single first
element, and the fresh counter increments; at or below the threshold the
state is completely unchanged — the detection is dropped with no record. -/
theorem unmatched_birth_strict_threshold
    (p : TrackingParams) (store : List Track) (continued : List ℕ) (next : ℕ)
    (d : Detection) (hfresh : ∀ t ∈ store, t.id ≠ next) :
    (d.score > p.score_init_min →
      continueStep p (store, continued, next) (d, none)
        = (store ++ [{ id := next, detections := [{ d with track := some next }] }],
           continued ++ [next], next + 1)) ∧
    (¬ d.score > p.score_init_min →
      continueStep p (store, continued, next) (d, none) = (store, continued, next)) :=
  ⟨fun hs => continueStep_none_high hs hfresh, fun hs => continueStep_none_low hs⟩

theorem unmatched_birth_strict_threshold_witness :
    (∀ t ∈ ([] : List Track), t.id ≠ 0) ∧
    ((dC5.score > pW.score_init_min →
      continueStep pW ([], [], 0) (dC5, none)
        = ([{ id := 0, detections := [{ dC5 with track := some 0 }] }], [0], 1)) ∧
    (¬ dC5.score > pW.score_init_min →
      continueStep pW ([], [], 0) (dC5, none) = ([], [], 0))) :=
  ⟨fun t ht => absurd ht (List.not_mem_nil _),
   unmatched_birth_strict_threshold pW [] [] 0 dC5
     (fun t ht => absurd ht (List.not_mem_nil _))⟩

def rawC6 : RawDetection :=
  { box := (0, 0, 2, 2), score := 7/10, label := 0, mask := {(0, 0)}, feature := none }

def frameC6 : FrameInput :=
  { rawDets := [rawC6], hasFeatures := false, image := 0, imageShape := (10, 10) }

/-- C6 (counterexample): a raw detection whose score EQUALS
`score_continue_min` is excluded from the frame's detection list, although
the claim says detections at the floor enter the matching pool: the source
filter is the strict `box[4] > score_continue_min`. -/
theorem at_floor_detection_excluded :
    rawC6.score = pW.score_continue_min ∧ rawC6 ∈ frameC6.rawDets ∧
    buildDetections pW none 0 frameC6 = [] := by
  refine ⟨by norm_num [rawC6, pW], by simp [frameC6], ?_⟩
  norm_num [buildDetections, frameC6, rawC6, pW, List.filter]

/-- C6 (amended): with no label filter a detection enters the frame's
candidate pool iff its raw score is STRICTLY above `score_continue_min`
(at-the-floor detections are excluded), and in every successful run of the
controller each detection stored in any output track has score strictly
above `score_continue_min` — below-or-at-floor detections never appear in
any output track. -/
theorem detection_floor_strict
    (ext : ExternalFns) (p : TrackingParams) (ts : ℕ) (frame : FrameInput)
    (frames : List FrameInput) (res : List Track)
    (h : track ext p none frames = Except.ok res) :
    (∀ d, d ∈ buildDetections p none ts frame ↔
      ∃ r ∈ frame.rawDets, r.score > p.score_continue_min ∧
        d = mkDetection p ts frame r) ∧
    (∀ t ∈ res, ∀ d ∈ t.detections, d.score > p.score_continue_min) := by
  constructor
  · intro d
    rw [buildDetections_mem]
    constructor
    · rintro ⟨r, hr, hsc, _, rfl⟩
      exact ⟨r, hr, hsc, rfl⟩
    · rintro ⟨r, hr, hsc, rfl⟩
      exact ⟨r, hr, hsc, fun v hv => Option.noConfusion hv, rfl⟩
  · intro t ht
    obtain ⟨ _, htr⟩ := track_result_inv h
    exact (htr t ht).2.2.2

theorem detection_floor_strict_witness :
    track extW pW none [] = Except.ok [] ∧
    ((∀ d, d ∈ buildDetections pW none 0 frameC6 ↔
      ∃ r ∈ frameC6.rawDets, r.score > pW.score_continue_min ∧
        d = mkDetection pW 0 frameC6 r) ∧
    (∀ t ∈ ([] : List Track), ∀ d ∈ t.detections,
      d.score > pW.score_continue_min)) :=
  ⟨rfl, detection_floor_strict extW pW 0 frameC6 [] [] rfl⟩

def motPass (label_list : List String) (t : Track) : Bool :=
  (match t.detections.getLast? with
   | some last => decide ((label_list.get? last.label).getD "" = "person")
   | none => false) &&
  decide (4 < t.detections.length) &&
  t.detections.any (fun x => decide (x.score ≥ (0.5 : ℚ)))

def LineOf (frame_numbers : List ℤ) (ts : ℕ) (d : Detection) (line : MotLine) : Prop :=
  frame_numbers.get? ts = some line.frame ∧ d.track = some line.track_id ∧
  line.left = d.box.1 ∧ line.top = d.box.2.1 ∧
  line.width = d.box.2.2.1 - d.box.1 ∧ line.height = d.box.2.2.2 - d.box.2.1 ∧
  line.conf = d.score ∧ line.x3d = -1 ∧ line.y3d = -1 ∧ line.z3d = -1

theorem motPass_iff {label_list : List String} {t : Track} {last : Detection}
    {lbl : String} (hlast : t.detections.getLast? = some last)
    (hlbl : label_list.get? last.label = some lbl) :
    motPass label_list t = true ↔
      lbl = "person" ∧ 4 < t.detections.length ∧
        ∃ x ∈ t.detections, x.score ≥ (0.5 : ℚ) := by
  have hlbl2 : label_list[last.label]? = some lbl := by
    rw [← List.get?_eq_getElem?]
    exact hlbl
  simp [motPass, hlast, hlbl2, List.any_eq_true, and_assoc]

theorem motFilter_fold_eq (label_list : List String) :
    ∀ (tracks : List Track) (acc : List Track),
      (∀ t ∈ tracks, t.detections ≠ []) →
      (∀ t ∈ tracks, ∀ last, t.detections.getLast? = some last →
        last.label < label_list.length) →
      tracks.foldlM (motFilterStep label_list) acc
        = Except.ok (acc ++ tracks.filter (motPass label_list)) := by
  intro tracks
  induction tracks with
  | nil => intro acc _ _; simp
  | cons t rest ih =>
    intro acc hne hlbl
    rw [List.foldlM_cons]
    obtain ⟨last, hlast⟩ : ∃ last, t.detections.getLast? = some last := by
      cases hg : t.detections.getLast? with
      | none =>
        exact absurd (List.getLast?_eq_none.mp hg) (hne t (by simp))
      | some l => exact ⟨l, rfl⟩
    have hlb : last.label < label_list.length := hlbl t (by simp) last hlast
    obtain ⟨lbl, hlbl2⟩ : ∃ lbl, label_list.get? last.label = some lbl :=
      ⟨_, by rw [List.get?_eq_getElem?, List.getElem?_eq_getElem hlb]⟩
    have hLD : lastDet t = Except.ok last := by simp [lastDet, hlast]
    have hGA : getAt label_list last.label = Except.ok lbl := getAt_eq_ok.mpr hlbl2
    have hpass := motPass_iff hlast hlbl2
    have hrest1 := fun t2 h2 => hne t2 (List.mem_cons_of_mem _ h2)
    have hrest2 := fun t2 h2 => hlbl t2 (List.mem_cons_of_mem _ h2)
    by_cases hP : lbl = "person" ∧ 4 < t.detections.length ∧
        ∃ x ∈ t.detections, x.score ≥ (0.5 : ℚ)
    · have hstep : motFilterStep label_list acc t = Except.ok (acc ++ [t]) := by
        simp only [motFilterStep, hLD, exceptBindOk, hGA]
        rw [if_pos hP]
        rfl
      have hpa : motPass label_list t = true := hpass.mpr hP
      rw [hstep, exceptBindOk, ih (acc ++ [t]) hrest1 hrest2]
      rw [List.filter_cons, if_pos hpa]
      simp
    · have hstep : motFilterStep label_list acc t = Except.ok acc := by
        simp only [motFilterStep, hLD, exceptBindOk, hGA]
        rw [if_neg hP]
        rfl
      have hpa : ¬ motPass label_list t = true := fun hh => hP (hpass.mp hh)
      rw [hstep, exceptBindOk, ih acc hrest1 hrest2]
      rw [List.filter_cons, if_neg hpa]

theorem forall2_append {α β : Type*} {R : α → β → Prop}
    {a : List α} {c : List β} {b : List α} {d : List β}
    (h1 : List.Forall₂ R a c) (h2 : List.Forall₂ R b d) :
    List.Forall₂ R (a ++ b) (c ++ d) := by
  induction h1 with
  | nil => simpa using h2
  | cons hr htail ih => exact List.Forall₂.cons hr ih

theorem forall2_mem_left {α β : Type*} {R : α → β → Prop} {a : List α} {c : List β}
    (h1 : List.Forall₂ R a c) : ∀ x ∈ a, ∃ y ∈ c, R x y := by
  induction h1 with
  | nil => intro x hx; exact absurd hx (List.not_mem_nil _)
  | cons hr htail ih =>
    intro x hx
    rcases List.mem_cons.mp hx with rfl | hx2
    · exact ⟨_, by simp, hr⟩
    · obtain ⟨y, hy, hry⟩ := ih x hx2
      exact ⟨y, List.mem_cons_of_mem _ hy, hry⟩

theorem forall2_mem_right {α β : Type*} {R : α → β → Prop} {a : List α} {c : List β}
    (h1 : List.Forall₂ R a c) : ∀ y ∈ c, ∃ x ∈ a, R x y := by
  induction h1 with
  | nil => intro y hy; exact absurd hy (List.not_mem_nil _)
  | cons hr htail ih =>
    intro y hy
    rcases List.mem_cons.mp hy with rfl | hy2
    · exact ⟨_, by simp, hr⟩
    · obtain ⟨x, hx, hrx⟩ := ih y hy2
      exact ⟨x, List.mem_cons_of_mem _ hx, hrx⟩

theorem motLine_fold_inner (frame_numbers : List ℤ) :
    ∀ (dets : List Detection) (ts : ℕ) (acc res : List MotLine),
      (∀ d ∈ dets, d.timestamp = ts) →
      dets.foldlM (motLineStep frame_numbers ts) acc = Except.ok res →
      ∃ lines, res = acc ++ lines ∧
        List.Forall₂ (fun d line => LineOf frame_numbers d.timestamp d line)
          dets lines := by
  intro dets
  induction dets with
  | nil =>
    intro ts acc res _ h
    rw [List.foldlM_nil] at h
    injection h with h
    exact ⟨[], by simp [h.symm], List.Forall₂.nil⟩
  | cons d rest ih =>
    intro ts acc res hts h
    rw [List.foldlM_cons] at h
    cases hfr : getAt frame_numbers ts with
    | error e =>
      rw [show motLineStep frame_numbers ts acc d = Except.error e from by
        simp [motLineStep, hfr]] at h
      rw [exceptBindErr] at h
      exact Except.noConfusion h
    | ok fr =>
      cases htr : d.track with
      | none =>
        rw [show motLineStep frame_numbers ts acc d = Except.error .attributeError from by
          simp [motLineStep, hfr, htr]] at h
        rw [exceptBindErr] at h
        exact Except.noConfusion h
      | some tid =>
        have hstep : motLineStep frame_numbers ts acc d
            = Except.ok (acc ++ [MotLine.mk fr tid d.box.1 d.box.2.1
                (d.box.2.2.1 - d.box.1) (d.box.2.2.2 - d.box.2.1) d.score
                (-1) (-1) (-1)]) := by
          simp [motLineStep, hfr, htr]
        rw [hstep, exceptBindOk] at h
        obtain ⟨lines, h1, h2⟩ := ih ts _ res
          (fun d2 hd2 => hts d2 (List.mem_cons_of_mem _ hd2)) h
        refine ⟨MotLine.mk fr tid d.box.1 d.box.2.1 (d.box.2.2.1 - d.box.1)
            (d.box.2.2.2 - d.box.2.1) d.score (-1) (-1) (-1) :: lines,
          by simp [h1], List.Forall₂.cons ?_ h2⟩
        refine ⟨?_, htr, rfl, rfl, rfl, rfl, rfl, rfl, rfl, rfl⟩
        rw [hts d (by simp)]
        exact getAt_eq_ok.mp hfr

theorem motLine_fold_outer (frame_numbers : List ℤ) :
    ∀ (groups : List (ℕ × List Detection)) (acc res : List MotLine),
      (∀ pr ∈ groups, ∀ d ∈ pr.2, d.timestamp = pr.1) →
      groups.foldlM (fun lines pair =>
        pair.2.foldlM (motLineStep frame_numbers pair.1) lines) acc = Except.ok res →
      ∃ lines, res = acc ++ lines ∧
        List.Forall₂ (fun d line => LineOf frame_numbers d.timestamp d line)
          ((groups.map Prod.snd).flatten) lines := by
  intro groups
  induction groups with
  | nil =>
    intro acc res _ h
    rw [List.foldlM_nil] at h
    injection h with h
    exact ⟨[], by simp [h.symm], by simp⟩
  | cons g rest ih =>
    intro acc res hts h
    rw [List.foldlM_cons] at h
    cases hg : g.2.foldlM (motLineStep frame_numbers g.1) acc with
    | error e =>
      rw [hg, exceptBindErr] at h
      exact Except.noConfusion h
    | ok acc2 =>
      rw [hg, exceptBindOk] at h
      obtain ⟨lines1, he1, hf1⟩ := motLine_fold_inner frame_numbers g.2 g.1 acc acc2
        (hts g (by simp)) hg
      obtain ⟨lines2, he2, hf2⟩ := ih acc2 res
        (fun pr hpr => hts pr (List.mem_cons_of_mem _ hpr)) h
      refine ⟨lines1 ++ lines2, by simp [he2, he1], ?_⟩
      rw [show ((g :: rest).map Prod.snd).flatten
        = g.2 ++ (rest.map Prod.snd).flatten from by simp]
      exact forall2_append hf1 hf2

/-- C10: when every track fails the export filter (person-class final label,
more than 4 detections, some detection with score at least 0.5), the grouped
detection dict is empty and `output_mot_tracks` raises `AssertionError`
(`assert len(detections_by_frame) > 0`) before producing any line — it never
returns an empty line list. -/
theorem mot_export_asserts_when_none_pass
    (label_list : List String) (frame_numbers : List ℤ) (tracks : List Track)
    (hne : ∀ t ∈ tracks, t.detections ≠ [])
    (hlbl : ∀ t ∈ tracks, ∀ last, t.detections.getLast? = some last →
      last.label < label_list.length)
    (hfail : ∀ t ∈ tracks, motPass label_list t = false) :
    output_mot_tracks label_list frame_numbers tracks
      = Except.error PyError.assertionError := by
  have hfilter : tracks.filter (motPass label_list) = [] := by
    rw [List.filter_eq_nil]
    intro t ht
    simp [hfail t ht]
  simp only [output_mot_tracks]
  rw [motFilter_fold_eq label_list tracks [] hne hlbl, exceptBindOk, List.nil_append,
    hfilter]
  rfl

def dC10 : Detection :=
  { box := (0, 0, 2, 2), score := 1, label := 0, timestamp := 0, image := 0,
    imageShape := (10, 10), mask := {(0, 0)}, mask_feature := none, track := some 0 }

def tC10 : Track := { id := 0, detections := [dC10] }

theorem mot_export_asserts_when_none_pass_witness :
    (∀ t ∈ [tC10], t.detections ≠ []) ∧
    (∀ t ∈ [tC10], ∀ last, t.detections.getLast? = some last →
      last.label < ["car"].length) ∧
    (∀ t ∈ [tC10], motPass ["car"] t = false) ∧
    output_mot_tracks ["car"] [] [tC10] = Except.error PyError.assertionError := by
  have h1 : ∀ t ∈ [tC10], t.detections ≠ [] := by
    intro t ht
    rw [List.mem_singleton] at ht
    subst ht
    simp [tC10]
  have h2 : ∀ t ∈ [tC10], ∀ last, t.detections.getLast? = some last →
      last.label < ["car"].length := by
    intro t ht last hlast
    rw [List.mem_singleton] at ht
    subst ht
    rw [show tC10.detections.getLast? = some dC10 from rfl] at hlast
    injection hlast with hlast
    subst hlast
    show (0 : ℕ) < 1
    omega
  have h3 : ∀ t ∈ [tC10], motPass ["car"] t = false := by
    intro t ht
    rw [List.mem_singleton] at ht
    subst ht
    rfl
  exact ⟨h1, h2, h3, mot_export_asserts_when_none_pass ["car"] [] [tC10] h1 h2 h3⟩

/-- C8: on a successful export, a track is included iff its final
detection's label names the person class, it has more than 4 detections,
and some detection's score is at least 0.5; the emitted lines are in
bijection with the detections of the included tracks, and each line carries
`left = x0`, `top = y0`, `width = x1 - x0`, `height = y1 - y0`,
`conf = score`, the track identity, the frame number looked up at the
detection's timestamp, and the literal `-1,-1,-1` 3D suffix (`LineOf`). -/
theorem mot_export_filter_and_format
    (label_list : List String) (frame_numbers : List ℤ) (tracks : List Track)
    (res : List MotLine)
    (hne : ∀ t ∈ tracks, t.detections ≠ [])
    (hlbl : ∀ t ∈ tracks, ∀ last, t.detections.getLast? = some last →
      last.label < label_list.length)
    (h : output_mot_tracks label_list frame_numbers tracks = Except.ok res) :
    (∀ t ∈ tracks, ∀ last lbl, t.detections.getLast? = some last →
      label_list.get? last.label = some lbl →
      (t ∈ tracks.filter (motPass label_list) ↔
        lbl = "person" ∧ 4 < t.detections.length ∧
          ∃ x ∈ t.detections, x.score ≥ (0.5 : ℚ))) ∧
    res.length
      = ((tracks.filter (motPass label_list)).flatMap Track.detections).length ∧
    (∀ d ∈ (tracks.filter (motPass label_list)).flatMap Track.detections,
      ∃ line ∈ res, LineOf frame_numbers d.timestamp d line) ∧
    (∀ line ∈ res,
      ∃ d ∈ (tracks.filter (motPass label_list)).flatMap Track.detections,
      LineOf frame_numbers d.timestamp d line) := by
  have hconj1 : ∀ t ∈ tracks, ∀ last lbl, t.detections.getLast? = some last →
      label_list.get? last.label = some lbl →
      (t ∈ tracks.filter (motPass label_list) ↔
        lbl = "person" ∧ 4 < t.detections.length ∧
          ∃ x ∈ t.detections, x.score ≥ (0.5 : ℚ)) := by
    intro t ht last lbl hlast hlbl2
    rw [List.mem_filter]
    constructor
    · rintro ⟨ _, hp⟩
      exact (motPass_iff hlast hlbl2).mp hp
    · intro hp
      exact ⟨ht, (motPass_iff hlast hlbl2).mpr hp⟩
  simp only [output_mot_tracks] at h
  rw [motFilter_fold_eq label_list tracks [] hne hlbl, exceptBindOk,
    List.nil_append] at h
  split at h
  · rw [exceptThrow] at h
    exact Except.noConfusion h
  · have hsort_perm : (List.insertionSort (fun a b : ℕ × List Detection => a.1 ≤ b.1)
        (groupByKey Detection.timestamp
          ((tracks.filter (motPass label_list)).flatMap Track.detections))).Perm
        (groupByKey Detection.timestamp
          ((tracks.filter (motPass label_list)).flatMap Track.detections)) :=
      List.perm_insertionSort _ _
    have hkeyS : ∀ pr ∈ List.insertionSort (fun a b : ℕ × List Detection => a.1 ≤ b.1)
        (groupByKey Detection.timestamp
          ((tracks.filter (motPass label_list)).flatMap Track.detections)),
        ∀ d ∈ pr.2, d.timestamp = pr.1 := by
      intro pr hpr d hd
      exact groupByKey_key_eq pr (hsort_perm.mem_iff.mp hpr) d hd
    obtain ⟨lines, hres, hfa⟩ := motLine_fold_outer frame_numbers _ [] res hkeyS h
    rw [List.nil_append] at hres
    subst hres
    have hflat_perm : ((List.insertionSort (fun a b : ℕ × List Detection => a.1 ≤ b.1)
        (groupByKey Detection.timestamp
          ((tracks.filter (motPass label_list)).flatMap Track.detections))).map
          Prod.snd).flatten.Perm
        ((tracks.filter (motPass label_list)).flatMap Track.detections) :=
      (List.Perm.flatten (hsort_perm.map Prod.snd)).trans groupByKey_flatten_perm
    refine ⟨hconj1, hfa.length_eq.symm.trans hflat_perm.length_eq, ?_, ?_⟩
    · intro d hd
      exact forall2_mem_left hfa d (hflat_perm.mem_iff.mpr hd)
    · intro line hl
      obtain ⟨d, hdflat, hR⟩ := forall2_mem_right hfa line hl
      exact ⟨d, hflat_perm.mem_iff.mp hdflat, hR⟩

def dC8 (ts : ℕ) : Detection :=
  { box := (10, 10, 50, 60), score := 1, label := 0, timestamp := ts, image := ts,
    imageShape := (100, 100), mask := {(0, 0)}, mask_feature := none, track := some 0 }

def tC8 : Track :=
  { id := 0, detections := [dC8 0, dC8 1, dC8 2, dC8 3, dC8 4, dC8 5] }

def frameNumsC8 : List ℤ := [10, 11, 12, 13, 14, 15]

def lineC8 (fr : ℤ) : MotLine :=
  MotLine.mk fr 0 10 10 (50 - 10) (60 - 10) 1 (-1) (-1) (-1)

def linesC8 : List MotLine :=
  [lineC8 10, lineC8 11, lineC8 12, lineC8 13, lineC8 14, lineC8 15]

theorem mot_export_filter_and_format_witness :
    (∀ t ∈ [tC8], t.detections ≠ []) ∧
    (∀ t ∈ [tC8], ∀ last, t.detections.getLast? = some last →
      last.label < ["person"].length) ∧
    output_mot_tracks ["person"] frameNumsC8 [tC8] = Except.ok linesC8 ∧
    (50 - 10 : ℚ) = 40 ∧ (60 - 10 : ℚ) = 50 ∧
    ((∀ t ∈ [tC8], ∀ last lbl, t.detections.getLast? = some last →
      (["person"] : List String).get? last.label = some lbl →
      (t ∈ [tC8].filter (motPass ["person"]) ↔
        lbl = "person" ∧ 4 < t.detections.length ∧
          ∃ x ∈ t.detections, x.score ≥ (0.5 : ℚ))) ∧
    linesC8.length
      = (([tC8].filter (motPass ["person"])).flatMap Track.detections).length ∧
    (∀ d ∈ ([tC8].filter (motPass ["person"])).flatMap Track.detections,
      ∃ line ∈ linesC8, LineOf frameNumsC8 d.timestamp d line) ∧
    (∀ line ∈ linesC8,
      ∃ d ∈ ([tC8].filter (motPass ["person"])).flatMap Track.detections,
      LineOf frameNumsC8 d.timestamp d line)) := by
  have h1 : ∀ t ∈ [tC8], t.detections ≠ [] := by
    intro t ht
    rw [List.mem_singleton] at ht
    subst ht
    simp [tC8]
  have h2 : ∀ t ∈ [tC8], ∀ last, t.detections.getLast? = some last →
      last.label < ["person"].length := by
    intro t ht last hlast
    rw [List.mem_singleton] at ht
    subst ht
    rw [show tC8.detections.getLast? = some (dC8 5) from rfl] at hlast
    injection hlast with hlast
    subst hlast
    show (0 : ℕ) < 1
    omega
  have hstep1 : motFilterStep ["person"] [] tC8 = Except.ok ([] ++ [tC8]) := by
    have hP : True ∧ 4 < tC8.detections.length ∧
        ∃ x ∈ tC8.detections, x.score ≥ (0.5 : ℚ) := by
      refine ⟨trivial, by norm_num [tC8], ⟨dC8 0, by simp [tC8], by norm_num [dC8]⟩⟩
    simp only [motFilterStep, show lastDet tC8 = Except.ok (dC8 5) from rfl,
      exceptBindOk, show getAt ["person"] (dC8 5).label = Except.ok "person" from rfl]
    rw [if_pos hP]
    rfl
  have h : output_mot_tracks ["person"] frameNumsC8 [tC8] = Except.ok linesC8 := by
    simp only [output_mot_tracks, List.foldlM_cons, hstep1, exceptBindOk,
      List.foldlM_nil, exceptPure]
    rfl
  exact ⟨h1, h2, h, by norm_num, by norm_num,
    mot_export_filter_and_format ["person"] frameNumsC8 [tC8] linesC8 h1 h2 h⟩

def pC1 : TrackingParams := { pW with frames_skip_max := 1 }

/-- C1 (code bug): the lifecycle test at the end of the frame loop computes
`track.last_timestamp() - timestamp < frames_skip_max` with the operands
reversed.  Since a current track's last timestamp never exceeds the current
frame's, the difference is at most 0, so for ANY positive `frames_skip_max`
an unmatched current track is always kept eligible (SKIPPED) — including
when the claimed quantity `timestamp - last_timestamp()` is at or above
`frames_skip_max`, where the claim requires the track to be retired from
the active set. -/
theorem skip_check_subtraction_reversed
    (p : TrackingParams) (ts : ℕ) (continued : List ℕ) (acc : List ℕ)
    (t : Track) (lt : ℕ) (hlt : t.last_timestamp = some lt) (hle : lt ≤ ts)
    (hpos : 0 < p.frames_skip_max) (hnc : t.id ∉ continued) :
    skipCheck p ts continued acc t = Except.ok (acc ++ [t.id]) := by
  simp only [skipCheck, hlt]
  rw [if_neg hnc]
  have hcast : (lt : ℤ) ≤ (ts : ℤ) := by exact_mod_cast hle
  rw [if_pos (by omega : (lt : ℤ) - (ts : ℤ) < p.frames_skip_max)]
  rfl

theorem skip_check_subtraction_reversed_witness :
    (Track.mk 0 [dC10]).last_timestamp = some 0 ∧ (0 : ℕ) ≤ 3 ∧
    (0 : ℤ) < pC1.frames_skip_max ∧
    (Track.mk 0 [dC10]).id ∉ ([] : List ℕ) ∧
    pC1.frames_skip_max ≤ (3 : ℤ) - (0 : ℤ) ∧
    skipCheck pC1 3 [] [] (Track.mk 0 [dC10])
      = Except.ok ([] ++ [(Track.mk 0 [dC10]).id]) :=
  ⟨rfl, by omega, by decide, List.not_mem_nil _, by decide,
   skip_check_subtraction_reversed pC1 3 [] [] (Track.mk 0 [dC10]) 0 rfl
     (by omega) (by decide) (List.not_mem_nil _)⟩
